import Mathlib

/-!
Shallow embedding of the PyThermite python prototype index
(src/py_index/src/py/index.py together with the observable protocol of
src/py_index/src/py/indexable.py, class _Indexable).

Python dicts are modelled as association lists (first binding wins, which
coincides with dict behaviour because keys stay unique), python sets of
objects as duplicate-free lists of object ids, and python values as the
tagged type Value below.  An object that python cannot hash (a set, a
user class with __hash__ = None, ...) is modelled by the constructor
Value.vobj with its hashable flag set to false; hashable opaque objects
use the flag true.  A dict lookup with an unhashable key raises TypeError
in python, so every modelled lookup that python performs on a candidate
key first checks the flag and reports the error as an Option String.
-/

inductive Value : Type where
  | vnone : Value
  | vbool : Bool → Value
  | vint : Int → Value
  | vstr : String → Value
  | vobj : Nat → Bool → Value
  deriving DecidableEq, Repr

namespace Value

/-- isinstance(v, Hashable): every modelled value is hashable except an
opaque object whose flag says otherwise. -/
def hashable : Value → Bool
  | .vobj _ h => h
  | _ => true

end Value

/-- Message of the TypeError raised by Index._add_index,
f-string Unhashable type {type(attr_val)}; python renders the class name
in quotes, elided here. -/
def unhashableTypeMsg : String :=
  "Unhashable type <class object>"

/-- Message of the TypeError python raises when an unhashable value is used
as a dict key (the val in self._index[attr] membership tests). -/
def unhashableKeyMsg : String :=
  "unhashable type"

section AList

variable {α β : Type} [DecidableEq α]

/-- Python dict lookup, d.get(k) / k in d. -/
def alistGet (k : α) : List (α × β) → Option β
  | [] => none
  | p :: t => if p.1 = k then some p.2 else alistGet k t

/-- Python dict write d[k] = v: replace the binding in place, or append a
new binding at the end (dicts preserve insertion order). -/
def alistSet (k : α) (v : β) : List (α × β) → List (α × β)
  | [] => [(k, v)]
  | p :: t => if p.1 = k then (k, v) :: t else p :: alistSet k v t

/-- Python dict deletion del d[k] (keys are unique in every reachable
dict, so removing every binding of k is the same operation). -/
def alistDel (k : α) (l : List (α × β)) : List (α × β) :=
  l.filter (fun p => if p.1 = k then false else true)

end AList

/-- The __dict__ of an object: attribute name to value, insertion ordered. -/
abbrev Obj : Type := List (String × Value)

/-- getattr(o, a) for an attribute held in __dict__. -/
def objGet (o : Obj) (a : String) : Option Value :=
  alistGet a o

/-- getattr(o, a, default). -/
def objGetD (o : Obj) (a : String) (d : Value) : Value :=
  (objGet o a).getD d

/-- Plain attribute store o.__dict__[a] = v. -/
def objSet (o : Obj) (a : String) (v : Value) : Obj :=
  alistSet a v o

/-- The nested dict self._index : attr name → value → set of objects.
Objects are identified by ids (Nat); a bucket is a duplicate-free list. -/
abbrev PyIdx : Type := List (String × List (Value × List Nat))

/-- Membership of object oid in the bucket of value v under attribute a. -/
def memBucket (idx : PyIdx) (a : String) (v : Value) (oid : Nat) : Bool :=
  match alistGet a idx with
  | none => false
  | some m =>
    match alistGet v m with
    | none => false
    | some b => oid ∈ b

/-- Inner block of Index._remove_index once attr is known present and val
hashable: discard the object from the bucket of val and prune an emptied
bucket. -/
def removeVal (m : List (Value × List Nat)) (oid : Nat) (val : Value) :
    List (Value × List Nat) :=
  match alistGet val m with
  | none => m
  | some b =>
    let b1 := b.erase oid
    if b1 = [] then alistDel val m else alistSet val b1 m

/-- Index._remove_index(obj, attr, val).  The membership test
val in self._index[attr] raises TypeError when val is unhashable; the
error leaves the structure untouched.  Empty buckets and then an empty
attribute entry are pruned. -/
def removeIndex (idx : PyIdx) (oid : Nat) (attr : String) (val : Value) :
    PyIdx × Option String :=
  match alistGet attr idx with
  | none => (idx, none)
  | some m =>
    if val.hashable then
      let m1 := removeVal m oid val
      if m1 = [] then (alistDel attr idx, none) else (alistSet attr m1 idx, none)
    else (idx, some unhashableKeyMsg)

/-- attr.startswith of the underscore character, written on the character
list so that it evaluates inside the kernel. -/
def underscored (s : String) : Bool :=
  match s.data with
  | [] => false
  | c :: _ => c = ('_' : Char)

/-- Index._add_index(obj, attr) where o is obj.__dict__ and d is the
stored self._attr_default.  Underscore-prefixed attributes are skipped.
The attribute entry is created before the value is inspected, so a raised
TypeError leaves behind the (possibly empty) entry. -/
def addIndexAttr (d : Value) (o : Obj) (idx : PyIdx) (oid : Nat)
    (attr : String) : PyIdx × Option String :=
  if underscored attr then (idx, none)
  else
    let m := (alistGet attr idx).getD []
    let v := objGetD o attr d
    if v.hashable then
      let b := (alistGet v m).getD []
      let b1 := if oid ∈ b then b else b ++ [oid]
      (alistSet attr (alistSet v b1 m) idx, none)
    else (alistSet attr m idx, some unhashableTypeMsg)

/-- Whole-system state: the index dict, the remembered attr_default of the
latest add_object call, the object heap, and the set of object ids whose
_index set contains this index (the subscribers). -/
structure Config where
  attrDefault : Value
  index : PyIdx
  store : Nat → Obj
  subs : List Nat

/-- The loop for attr in attrs: self._add_index(obj, attr) inside
Index.add_object: a raised TypeError aborts the remaining iterations and
propagates. -/
def addObjectLoop (c : Config) (oid : Nat) : List String → Config × Option String
  | [] => (c, none)
  | a :: rest =>
    match addIndexAttr c.attrDefault (c.store oid) c.index oid a with
    | (idx1, none) => addObjectLoop { c with index := idx1 } oid rest
    | (idx1, some e) => ({ c with index := idx1 }, some e)

/-- attrs = set(obj.__dict__.keys()); attrs.update(ignore_attrs);
attrs -= add_attrs.  The python set is modelled as a list enumerated in
first-occurrence order. -/
def computeAttrs (keys ignA addA : List String) : List String :=
  (keys ++ ignA.filter (fun a => if a ∈ keys then false else true)).filter
    (fun a => if a ∈ addA then false else true)

/-- Index.add_object(obj, add_attrs, ignore_attrs, attr_default).
On success the object subscribes (obj.add_index(self)); when the loop
raises, the partial index state is kept and no subscription happens. -/
def addObject (c : Config) (oid : Nat) (addA ignA : List String)
    (d : Value) : Config × Option String :=
  let c1 : Config := { c with attrDefault := d }
  let attrs := computeAttrs ((c.store oid).map Prod.fst) ignA addA
  match addObjectLoop c1 oid attrs with
  | (c2, none) =>
      ({ c2 with subs := if oid ∈ c2.subs then c2.subs else c2.subs ++ [oid] }, none)
  | (c2, some e) => (c2, some e)

/-- Heap after super().__setattr__(name, value) on object oid. -/
def setStore (c : Config) (oid : Nat) (name : String) (v : Value) :
    Nat → Obj :=
  fun n => if n = oid then objSet (c.store oid) name v else c.store n

/-- _Indexable.__setattr__(name, value): the old value is read first
(None when the attribute is absent), the store is updated, and only then
every subscribed index runs update_index = _remove_index; _add_index.
A TypeError from either phase propagates after the partial mutation. -/
def setAttrStep (c : Config) (oid : Nat) (name : String) (v : Value) :
    Config × Option String :=
  let oldVal := (objGet (c.store oid) name).getD Value.vnone
  let c1 : Config := { c with store := setStore c oid name v }
  if oid ∈ c.subs then
    match removeIndex c1.index oid name oldVal with
    | (idx1, some e) => ({ c1 with index := idx1 }, some e)
    | (idx1, none) =>
      match addIndexAttr c1.attrDefault (c1.store oid) idx1 oid name with
      | (idx2, r) => ({ c1 with index := idx2 }, r)
  else (c1, none)

/-- The operations a client can perform against one index. -/
inductive Event : Type where
  | add (oid : Nat) (addA ignA : List String) (d : Value)
  | set (oid : Nat) (name : String) (v : Value)

def step (c : Config) : Event → Config × Option String
  | .add oid aA iA d => addObject c oid aA iA d
  | .set oid n v => setAttrStep c oid n v

/-- Run a history; a raised TypeError is caught by the caller, who keeps
going with the partially mutated state. -/
def steps (c : Config) : List Event → Config
  | [] => c
  | e :: t => steps (step c e).1 t

/-- Run a history, failing it as soon as any operation raises. -/
def stepsOk (c : Config) : List Event → Option Config
  | [] => some c
  | e :: t =>
    match step c e with
    | (c1, none) => stepsOk c1 t
    | (_, some _) => none

/-- A fresh index over a given heap: Index() has an empty _index and no
subscriber; _attr_default is first written by add_object (modelled None). -/
def initConfig (s0 : Nat → Obj) : Config :=
  { attrDefault := Value.vnone, index := [], store := s0, subs := [] }

/-!
Query side: Index._get_search_order and Index.get_by_attribute.
A keyword value may be any python object; a list (any non-string
iterable) is unpacked into its elements (In semantics), everything else
is wrapped in a one-element list.
-/

/-- A keyword-argument value of get_by_attribute: a plain object, or a
list of objects. -/
inductive QVal : Type where
  | scalar : Value → QVal
  | vals : List Value → QVal
  deriving DecidableEq, Repr

/-- if not isinstance(vals, Iterable) or isinstance(vals, str):
vals = [vals]. -/
def valsOf : QVal → List Value
  | .scalar v => [v]
  | .vals vs => vs

/-- counts[attr] = len(self._index[attr]) or inf for a present attribute
(a zero length counts as infinity), inf for an absent one; none encodes
the python math.inf. -/
def searchCount (idx : PyIdx) (a : String) : Option Nat :=
  match alistGet a idx with
  | none => none
  | some m => if m.length = 0 then none else some m.length

/-- Comparison of counts, none being infinity. -/
def countLE (x y : Option Nat) : Bool :=
  match x, y with
  | _, none => true
  | none, some _ => false
  | some a, some b => a ≤ b

/-- Stable insertion used to model sorted(..., reverse=True): an element
keeps every earlier element whose key is at least its own in front. -/
def insertDesc (x : (String × QVal) × Option Nat) :
    List ((String × QVal) × Option Nat) → List ((String × QVal) × Option Nat)
  | [] => [x]
  | q :: t => if countLE q.2 x.2 then x :: q :: t else q :: insertDesc x t

/-- Stable descending sort by the count component. -/
def sortDesc : List ((String × QVal) × Option Nat) →
    List ((String × QVal) × Option Nat)
  | [] => []
  | x :: t => insertDesc x (sortDesc t)

/-- Index._get_search_order: reorder the keyword pairs by bucket-count
descending (python sorted is stable, so ties keep kwargs order). -/
def getSearchOrder (idx : PyIdx) (pairs : List (String × QVal)) :
    List (String × QVal) :=
  (sortDesc (pairs.map (fun p => (p, searchCount idx p.1)))).map Prod.fst

/-- The inner loop building single_arrt_val: for val in vals, union the
bucket when attr in self._index and val in self._index[attr].  The
second membership test raises TypeError on an unhashable val (the and
short-circuits, so an absent attribute never raises). -/
def collectVals (idx : PyIdx) (a : String) :
    List Value → List Nat → Except String (List Nat)
  | [], acc => .ok acc
  | v :: vs, acc =>
    match alistGet a idx with
    | none => collectVals idx a vs acc
    | some m =>
      if v.hashable then
        match alistGet v m with
        | none => collectVals idx a vs acc
        | some b =>
          collectVals idx a vs
            (acc ++ b.filter (fun o => if o ∈ acc then false else true))
      else .error unhashableKeyMsg

/-- The outer loop of get_by_attribute: res starts as None, becomes the
first single_arrt_val, then intersects; if len(res) == 0 the loop breaks
and the empty set is returned at once. -/
def gbaLoop (idx : PyIdx) :
    List (String × QVal) → Option (List Nat) → Except String (Option (List Nat))
  | [], res => .ok res
  | (a, qv) :: rest, res =>
    match collectVals idx a (valsOf qv) [] with
    | .error e => .error e
    | .ok single =>
      let res1 :=
        match res with
        | none => single
        | some r => r.filter (fun o => o ∈ single)
      if res1 = [] then .ok (some res1) else gbaLoop idx rest (some res1)

/-- Index.get_by_attribute(**attrs): reorder, then fold.  With no pairs
the loop never runs and the uninitialised None accumulator is returned. -/
def getByAttribute (idx : PyIdx) (pairs : List (String × QVal)) :
    Except String (Option (List Nat)) :=
  gbaLoop idx (getSearchOrder idx pairs) none

/-!
Association-list lemmas: the dict model.
-/

section AListLemmas

variable {α β : Type} [DecidableEq α]

theorem alistGet_set_self (k : α) (v : β) (l : List (α × β)) :
    alistGet k (alistSet k v l) = some v := by
  induction l with
  | nil => simp [alistGet, alistSet]
  | cons p t ih =>
    by_cases h : p.1 = k <;> simp [alistGet, alistSet, h, ih]

theorem alistGet_set_ne (k k2 : α) (v : β) (l : List (α × β)) (h : k2 ≠ k) :
    alistGet k2 (alistSet k v l) = alistGet k2 l := by
  induction l with
  | nil => simp [alistGet, alistSet, Ne.symm h]
  | cons p t ih =>
    by_cases hp : p.1 = k
    · simp [alistGet, alistSet, hp, Ne.symm h]
    · simp [alistGet, alistSet, hp, ih]

theorem alistDel_cons (k : α) (p : α × β) (t : List (α × β)) :
    alistDel k (p :: t) =
      if p.1 = k then alistDel k t else p :: alistDel k t := by
  by_cases h : p.1 = k <;> simp [alistDel, List.filter_cons, h]

theorem alistGet_del_self (k : α) (l : List (α × β)) :
    alistGet k (alistDel k l) = none := by
  induction l with
  | nil => simp [alistGet, alistDel]
  | cons p t ih =>
    by_cases h : p.1 = k
    · simpa [alistDel_cons, h] using ih
    · simpa [alistDel_cons, h, alistGet] using ih

theorem alistGet_del_ne (k k2 : α) (l : List (α × β)) (h : k2 ≠ k) :
    alistGet k2 (alistDel k l) = alistGet k2 l := by
  induction l with
  | nil => simp [alistGet, alistDel]
  | cons p t ih =>
    by_cases hp : p.1 = k
    · simp [alistDel_cons, hp, alistGet, ih, Ne.symm h]
    · simp [alistDel_cons, hp, alistGet, ih]

theorem alistSet_eq_self (k : α) (v : β) (l : List (α × β))
    (h : alistGet k l = some v) : alistSet k v l = l := by
  induction l with
  | nil => simp [alistGet] at h
  | cons p t ih =>
    by_cases hp : p.1 = k
    · subst hp
      simp [alistGet] at h
      simp [alistSet, ← h]
    · simp [alistGet, hp] at h
      simp [alistSet, hp, ih h]

theorem alistSet_ne_nil (k : α) (v : β) (l : List (α × β)) :
    alistSet k v l ≠ [] := by
  cases l with
  | nil => simp [alistSet]
  | cons p t =>
    by_cases hp : p.1 = k <;> simp [alistSet, hp]

theorem alistGet_mem (k : α) (v : β) (l : List (α × β))
    (h : alistGet k l = some v) : (k, v) ∈ l := by
  induction l with
  | nil => simp [alistGet] at h
  | cons p t ih =>
    by_cases hp : p.1 = k
    · subst hp
      simp [alistGet] at h
      subst h
      simp
    · simp [alistGet, hp] at h
      exact List.mem_cons_of_mem _ (ih h)

theorem mem_alistSet (k : α) (v : β) (l : List (α × β)) (p : α × β)
    (h : p ∈ alistSet k v l) : p = (k, v) ∨ p ∈ l := by
  induction l with
  | nil => simpa [alistSet] using h
  | cons q t ih =>
    by_cases hq : q.1 = k
    · simp [alistSet, hq] at h
      rcases h with h | h
      · exact Or.inl h
      · exact Or.inr (List.mem_cons_of_mem _ h)
    · simp [alistSet, hq] at h
      rcases h with h | h
      · exact Or.inr (by simp [h])
      · rcases ih h with h2 | h2
        · exact Or.inl h2
        · exact Or.inr (List.mem_cons_of_mem _ h2)

theorem mem_alistDel (k : α) (l : List (α × β)) (p : α × β)
    (h : p ∈ alistDel k l) : p ∈ l :=
  List.mem_of_mem_filter h

theorem keys_nodup_alistSet (k : α) (v : β) (l : List (α × β))
    (h : (l.map Prod.fst).Nodup) : ((alistSet k v l).map Prod.fst).Nodup := by
  induction l with
  | nil => simp [alistSet]
  | cons p t ih =>
    by_cases hp : p.1 = k
    · subst hp
      simpa [alistSet] using h
    · rw [List.map_cons, List.nodup_cons] at h
      rw [alistSet]
      simp only [hp, if_false, List.map_cons, List.nodup_cons]
      refine ⟨fun hx => ?_, ih h.2⟩
      rcases List.mem_map.1 hx with ⟨q, hq, hq1⟩
      rcases mem_alistSet k v t q hq with h2 | h2
      · rw [h2] at hq1
        exact hp hq1.symm
      · exact h.1 (List.mem_map.2 ⟨q, h2, hq1⟩)

theorem keys_nodup_alistDel (k : α) (l : List (α × β))
    (h : (l.map Prod.fst).Nodup) : ((alistDel k l).map Prod.fst).Nodup := by
  have hs : (alistDel k l).Sublist l := List.filter_sublist l
  exact (hs.map Prod.fst).nodup h

theorem alistDel_nil_get (k k2 : α) (l : List (α × β))
    (h : alistDel k l = []) (hne : k2 ≠ k) : alistGet k2 l = none := by
  induction l with
  | nil => simp [alistGet]
  | cons p t ih =>
    by_cases hp : p.1 = k
    · have ht : alistGet k2 t = none :=
        ih (by simpa [alistDel_cons, hp] using h)
      simp [alistGet, hp, Ne.symm hne, ht]
    · rw [alistDel_cons] at h
      simp [hp] at h

theorem erase_eq_nil_mem (b : List Nat) (oid o : Nat)
    (h : b.erase oid = []) (ho : o ∈ b) : o = oid := by
  cases b with
  | nil => simp at ho
  | cons x t =>
    by_cases hx : x = oid
    · subst hx
      simp [List.erase_cons_head] at h
      subst h
      simpa using ho
    · rw [List.erase_cons_tail] at h
      · simp at h
      · simpa using hx

end AListLemmas

/-!
Bucket-membership effect lemmas for _add_index and _remove_index.
-/

/-- Membership of object o in the bucket of value w inside one attribute
entry (the inner dict). -/
def mmem (m : List (Value × List Nat)) (w : Value) (o : Nat) : Bool :=
  match alistGet w m with
  | none => false
  | some b => o ∈ b

theorem mmem_nil (w : Value) (o : Nat) : mmem [] w o = false := by
  simp [mmem, alistGet]

theorem mmem_set_self (m : List (Value × List Nat)) (w : Value) (b : List Nat)
    (o : Nat) : mmem (alistSet w b m) w o = (o ∈ b : Bool) := by
  simp [mmem, alistGet_set_self]

theorem mmem_set_ne (m : List (Value × List Nat)) (w v : Value) (b : List Nat)
    (o : Nat) (h : w ≠ v) : mmem (alistSet v b m) w o = mmem m w o := by
  simp [mmem, alistGet_set_ne _ _ _ _ h]

theorem mmem_del_self (m : List (Value × List Nat)) (w : Value) (o : Nat) :
    mmem (alistDel w m) w o = false := by
  simp [mmem, alistGet_del_self]

theorem mmem_del_ne (m : List (Value × List Nat)) (w v : Value) (o : Nat)
    (h : w ≠ v) : mmem (alistDel v m) w o = mmem m w o := by
  simp [mmem, alistGet_del_ne _ _ _ h]

theorem memBucket_some (idx : PyIdx) (a : String)
    (m : List (Value × List Nat)) (h : alistGet a idx = some m) (w : Value)
    (o : Nat) : memBucket idx a w o = mmem m w o := by
  simp [memBucket, mmem, h]

theorem memBucket_absent (idx : PyIdx) (a : String)
    (h : alistGet a idx = none) (w : Value) (o : Nat) :
    memBucket idx a w o = false := by
  simp [memBucket, h]

theorem memBucket_set_self (idx : PyIdx) (a : String)
    (m1 : List (Value × List Nat)) (w : Value) (o : Nat) :
    memBucket (alistSet a m1 idx) a w o = mmem m1 w o := by
  simp [memBucket, mmem, alistGet_set_self]

theorem memBucket_set_ne (idx : PyIdx) (a attr : String)
    (m1 : List (Value × List Nat)) (w : Value) (o : Nat) (h : a ≠ attr) :
    memBucket (alistSet attr m1 idx) a w o = memBucket idx a w o := by
  simp [memBucket, alistGet_set_ne _ _ _ _ h]

theorem memBucket_del_self (idx : PyIdx) (a : String) (w : Value) (o : Nat) :
    memBucket (alistDel a idx) a w o = false := by
  simp [memBucket, alistGet_del_self]

theorem memBucket_del_ne (idx : PyIdx) (a attr : String) (w : Value) (o : Nat)
    (h : a ≠ attr) :
    memBucket (alistDel attr idx) a w o = memBucket idx a w o := by
  simp [memBucket, alistGet_del_ne _ _ _ h]

theorem memBucket_getD (idx : PyIdx) (a : String) (w : Value) (o : Nat) :
    memBucket idx a w o = mmem ((alistGet a idx).getD []) w o := by
  cases h : alistGet a idx with
  | none =>
    rw [memBucket_absent idx a h]
    simp [mmem_nil]
  | some m =>
    rw [memBucket_some idx a m h]
    rfl

theorem mmem_getD (m : List (Value × List Nat)) (w : Value) (o2 : Nat) :
    mmem m w o2 = ((o2 ∈ ((alistGet w m).getD [])) : Bool) := by
  cases h : alistGet w m with
  | none => simp [mmem, h]
  | some b => simp [mmem, h]

theorem memBucket_getD_entry (idx : PyIdx) (attr : String) (w : Value)
    (o : Nat) :
    memBucket (alistSet attr ((alistGet attr idx).getD []) idx) attr w o =
      memBucket idx attr w o := by
  cases h : alistGet attr idx with
  | none =>
    rw [memBucket_absent idx attr h]
    simp [memBucket_set_self, mmem_nil]
  | some m =>
    simp only [Option.getD_some]
    rw [alistSet_eq_self _ _ _ h]

/-- Bucket update: set.update({obj}) adds exactly oid. -/
theorem mem_update_bucket (b : List Nat) (oid o2 : Nat) :
    (o2 ∈ (if oid ∈ b then b else b ++ [oid])) ↔ (o2 ∈ b ∨ o2 = oid) := by
  by_cases hin : oid ∈ b
  · rw [if_pos hin]
    exact ⟨fun h => Or.inl h, fun h => h.elim id (fun h2 => h2 ▸ hin)⟩
  · rw [if_neg hin]
    simp [List.mem_append]

/-- Bucket update inside one attribute entry: set.update({obj}) adds
exactly oid to the bucket of v, leaving every other membership alone. -/
theorem mmem_update_iff (m : List (Value × List Nat)) (v : Value)
    (oid o2 : Nat) (w : Value) :
    mmem (alistSet v
      (if oid ∈ ((alistGet v m).getD []) then ((alistGet v m).getD [])
        else ((alistGet v m).getD []) ++ [oid]) m) w o2 = true ↔
      (mmem m w o2 = true ∨ (w = v ∧ o2 = oid)) := by
  by_cases hw : w = v
  · subst hw
    rw [mmem_set_self, mmem_getD]
    simp only [decide_eq_true_eq]
    rw [mem_update_bucket]
    simp
  · rw [mmem_set_ne _ _ _ _ _ hw]
    simp [hw]

/-- Skipped attribute: names starting with an underscore are not indexed. -/
theorem addIndexAttr_under (d : Value) (o : Obj) (idx : PyIdx) (oid : Nat)
    (attr : String) (h : underscored attr = true) :
    addIndexAttr d o idx oid attr = (idx, none) := by
  simp [addIndexAttr, h]

/-- Raising branch of _add_index: the attribute entry is materialised (empty
when fresh) and the TypeError propagates; no bucket membership changes. -/
theorem addIndexAttr_err (d : Value) (o : Obj) (idx : PyIdx) (oid : Nat)
    (attr : String) (h1 : underscored attr = false)
    (h2 : (objGetD o attr d).hashable = false) :
    addIndexAttr d o idx oid attr =
      (alistSet attr ((alistGet attr idx).getD []) idx,
        some unhashableTypeMsg) ∧
    ∀ a w o2,
      memBucket (addIndexAttr d o idx oid attr).1 a w o2 =
        memBucket idx a w o2 := by
  have he : addIndexAttr d o idx oid attr =
      (alistSet attr ((alistGet attr idx).getD []) idx,
        some unhashableTypeMsg) := by
    simp [addIndexAttr, h1, h2]
  refine ⟨he, fun a w o2 => ?_⟩
  rw [he]
  by_cases ha : a = attr
  · subst ha
    exact memBucket_getD_entry idx a w o2
  · exact memBucket_set_ne _ _ _ _ _ _ ha

/-- Successful branch of _add_index: exactly the membership
(attr, current value, oid) is added. -/
theorem addIndexAttr_ok (d : Value) (o : Obj) (idx : PyIdx) (oid : Nat)
    (attr : String) (h1 : underscored attr = false)
    (h2 : (objGetD o attr d).hashable = true) :
    (addIndexAttr d o idx oid attr).2 = none ∧
    ∀ a w o2,
      memBucket (addIndexAttr d o idx oid attr).1 a w o2 = true ↔
        (memBucket idx a w o2 = true ∨
          (a = attr ∧ w = objGetD o attr d ∧ o2 = oid)) := by
  have he : addIndexAttr d o idx oid attr =
      (alistSet attr
        (alistSet (objGetD o attr d)
          (if oid ∈ ((alistGet (objGetD o attr d)
                ((alistGet attr idx).getD [])).getD []) then
            ((alistGet (objGetD o attr d)
                ((alistGet attr idx).getD [])).getD [])
          else ((alistGet (objGetD o attr d)
                ((alistGet attr idx).getD [])).getD []) ++ [oid])
          ((alistGet attr idx).getD []))
        idx, none) := by
    simp [addIndexAttr, h1, h2]
  rw [he]
  refine ⟨rfl, fun a w o2 => ?_⟩
  by_cases ha : a = attr
  · subst ha
    rw [memBucket_set_self, memBucket_getD]
    simpa using
      mmem_update_iff ((alistGet a idx).getD []) (objGetD o a d) oid o2 w
  · rw [memBucket_set_ne _ _ _ _ _ _ ha]
    simp [ha]

theorem mmem_none (m : List (Value × List Nat)) (w : Value) (o : Nat)
    (h : alistGet w m = none) : mmem m w o = false := by
  simp [mmem, h]

theorem mmem_some (m : List (Value × List Nat)) (w : Value) (b : List Nat)
    (o : Nat) (h : alistGet w m = some b) : (mmem m w o = true) ↔ o ∈ b := by
  simp [mmem, h]

/-- Discarding oid from the bucket of val removes exactly that membership
(buckets are duplicate-free in every reachable state). -/
theorem mmem_removeVal (m : List (Value × List Nat)) (oid : Nat) (val : Value)
    (hnd : ∀ b, alistGet val m = some b → b.Nodup) (w : Value) (o : Nat) :
    mmem (removeVal m oid val) w o = true ↔
      (mmem m w o = true ∧ ¬(w = val ∧ o = oid)) := by
  cases hb : alistGet val m with
  | none =>
    have he : removeVal m oid val = m := by simp [removeVal, hb]
    rw [he]
    by_cases hw : w = val
    · rw [hw, mmem_none m val o hb]
      simp
    · simp [hw]
  | some b =>
    have hbnd := hnd b hb
    by_cases h1 : b.erase oid = []
    · have he : removeVal m oid val = alistDel val m := by
        simp [removeVal, hb, h1]
      rw [he]
      by_cases hw : w = val
      · rw [hw, mmem_del_self, mmem_some m val b o hb]
        simp only [Bool.false_eq_true, false_iff]
        rintro ⟨hm, hn⟩
        exact hn ⟨by trivial, erase_eq_nil_mem b oid o h1 hm⟩
      · rw [mmem_del_ne m w val o hw]
        simp [hw]
    · have he : removeVal m oid val = alistSet val (b.erase oid) m := by
        simp [removeVal, hb, h1]
      rw [he]
      by_cases hw : w = val
      · rw [hw, mmem_set_self, mmem_some m val b o hb]
        simp only [decide_eq_true_eq]
        rw [List.Nodup.mem_erase_iff hbnd]
        constructor
        · rintro ⟨hne, hm⟩
          exact ⟨hm, fun hc => hne hc.2⟩
        · rintro ⟨hm, hn⟩
          exact ⟨fun he2 => hn ⟨by trivial, he2⟩, hm⟩
      · rw [mmem_set_ne m w val _ o hw]
        simp [hw]

theorem removeIndex_absent (idx : PyIdx) (oid : Nat) (attr : String)
    (val : Value) (h : alistGet attr idx = none) :
    removeIndex idx oid attr val = (idx, none) := by
  simp [removeIndex, h]

/-- Raising branch of _remove_index: the membership test on an unhashable
old value raises TypeError before any mutation. -/
theorem removeIndex_err (idx : PyIdx) (oid : Nat) (attr : String)
    (val : Value) (m : List (Value × List Nat))
    (h : alistGet attr idx = some m) (h2 : val.hashable = false) :
    removeIndex idx oid attr val = (idx, some unhashableKeyMsg) := by
  simp [removeIndex, h, h2]

/-- Successful _remove_index with the attribute present: exactly the
membership (attr, val, oid) disappears. -/
theorem removeIndex_ok (idx : PyIdx) (oid : Nat) (attr : String)
    (val : Value) (m : List (Value × List Nat))
    (h : alistGet attr idx = some m) (h2 : val.hashable = true)
    (hnd : ∀ b, alistGet val m = some b → b.Nodup) :
    (removeIndex idx oid attr val).2 = none ∧
    ∀ a w o, memBucket (removeIndex idx oid attr val).1 a w o = true ↔
      (memBucket idx a w o = true ∧ ¬(a = attr ∧ w = val ∧ o = oid)) := by
  by_cases hc : removeVal m oid val = []
  · have he : removeIndex idx oid attr val = (alistDel attr idx, none) := by
      simp [removeIndex, h, h2, hc]
    rw [he]
    refine ⟨rfl, fun a w o => ?_⟩
    by_cases ha : a = attr
    · rw [ha, memBucket_del_self, memBucket_some idx attr m h]
      simp only [Bool.false_eq_true, false_iff]
      rintro ⟨hm, hn⟩
      have := (mmem_removeVal m oid val hnd w o).2
        ⟨hm, fun hx => hn ⟨by trivial, hx.1, hx.2⟩⟩
      rw [hc, mmem_nil] at this
      exact absurd this (by simp)
    · rw [memBucket_del_ne _ _ _ _ _ ha]
      simp [ha]
  · have he : removeIndex idx oid attr val =
        (alistSet attr (removeVal m oid val) idx, none) := by
      simp [removeIndex, h, h2, hc]
    rw [he]
    refine ⟨rfl, fun a w o => ?_⟩
    by_cases ha : a = attr
    · rw [ha, memBucket_set_self, memBucket_some idx attr m h]
      rw [mmem_removeVal m oid val hnd w o]
      simp
    · rw [memBucket_set_ne _ _ _ _ _ _ ha]
      simp [ha]

/-!
Structural invariants of the index dict, preserved by every operation.
-/

/-- Invariant of one attribute entry: unique value keys, hashable value
keys, nonempty duplicate-free buckets. -/
def entryInv (m : List (Value × List Nat)) : Prop :=
  (m.map Prod.fst).Nodup ∧
  ∀ q ∈ m, q.1.hashable = true ∧ q.2 ≠ [] ∧ q.2.Nodup

/-- Invariant of the whole index dict: unique attribute keys, no
underscore-prefixed attribute, every entry well formed. -/
def IdxInv (idx : PyIdx) : Prop :=
  (idx.map Prod.fst).Nodup ∧
  ∀ p ∈ idx, underscored p.1 = false ∧ entryInv p.2

/-- No empty attribute entry is retained (this one is broken by the
raising branch of _add_index). -/
def noEmptyAttr (idx : PyIdx) : Prop :=
  ∀ p ∈ idx, p.2 ≠ []

theorem entryInv_nil : entryInv [] :=
  ⟨List.nodup_nil, by simp⟩

theorem entryInv_getD (idx : PyIdx) (attr : String) (h : IdxInv idx) :
    entryInv ((alistGet attr idx).getD []) := by
  cases hg : alistGet attr idx with
  | none => exact entryInv_nil
  | some m => exact (h.2 (attr, m) (alistGet_mem _ _ _ hg)).2

theorem removeVal_entryInv (m : List (Value × List Nat)) (oid : Nat)
    (val : Value) (h : entryInv m) : entryInv (removeVal m oid val) := by
  cases hb : alistGet val m with
  | none => simpa [removeVal, hb] using h
  | some b =>
    have hbc := h.2 (val, b) (alistGet_mem _ _ _ hb)
    by_cases h1 : b.erase oid = []
    · have he : removeVal m oid val = alistDel val m := by
        simp [removeVal, hb, h1]
      rw [he]
      exact ⟨keys_nodup_alistDel _ _ h.1,
        fun q hq => h.2 q (mem_alistDel _ _ _ hq)⟩
    · have he : removeVal m oid val = alistSet val (b.erase oid) m := by
        simp [removeVal, hb, h1]
      rw [he]
      refine ⟨keys_nodup_alistSet _ _ _ h.1, fun q hq => ?_⟩
      rcases mem_alistSet _ _ _ _ hq with h2 | h2
      · rw [h2]
        exact ⟨hbc.1, h1, List.Nodup.erase oid hbc.2.2⟩
      · exact h.2 q h2

theorem updVal_entryInv (m : List (Value × List Nat)) (oid : Nat) (v : Value)
    (hv : v.hashable = true) (h : entryInv m) :
    entryInv (alistSet v
      (if oid ∈ ((alistGet v m).getD []) then ((alistGet v m).getD [])
        else ((alistGet v m).getD []) ++ [oid]) m) := by
  have hbn : ((alistGet v m).getD []).Nodup := by
    cases hb : alistGet v m with
    | none => simp
    | some b0 => exact (h.2 (v, b0) (alistGet_mem _ _ _ hb)).2.2
  refine ⟨keys_nodup_alistSet _ _ _ h.1, fun q hq => ?_⟩
  rcases mem_alistSet _ _ _ _ hq with h2 | h2
  · rw [h2]
    refine ⟨hv, ?_, ?_⟩
    · by_cases hin : oid ∈ ((alistGet v m).getD [])
      · rw [if_pos hin]
        exact List.ne_nil_of_mem hin
      · rw [if_neg hin]
        simp
    · by_cases hin : oid ∈ ((alistGet v m).getD [])
      · rw [if_pos hin]
        exact hbn
      · rw [if_neg hin]
        rw [List.nodup_append]
        refine ⟨hbn, List.nodup_singleton _, ?_⟩
        intro x hx hy
        rw [List.mem_singleton] at hy
        exact hin (hy ▸ hx)
  · exact h.2 q h2

theorem IdxInv_addIndexAttr (d : Value) (o : Obj) (idx : PyIdx) (oid : Nat)
    (attr : String) (h : IdxInv idx) :
    IdxInv (addIndexAttr d o idx oid attr).1 := by
  by_cases hund : underscored attr = true
  · rw [addIndexAttr_under d o idx oid attr hund]
    exact h
  · have hund2 : underscored attr = false := by
      simpa using hund
    by_cases hv : (objGetD o attr d).hashable = true
    · have he : (addIndexAttr d o idx oid attr).1 =
          alistSet attr
            (alistSet (objGetD o attr d)
              (if oid ∈ ((alistGet (objGetD o attr d)
                    ((alistGet attr idx).getD [])).getD []) then
                ((alistGet (objGetD o attr d)
                    ((alistGet attr idx).getD [])).getD [])
              else ((alistGet (objGetD o attr d)
                    ((alistGet attr idx).getD [])).getD []) ++ [oid])
              ((alistGet attr idx).getD []))
            idx := by
        simp [addIndexAttr, hund2, hv]
      rw [he]
      refine ⟨keys_nodup_alistSet _ _ _ h.1, fun p hp => ?_⟩
      rcases mem_alistSet _ _ _ _ hp with h2 | h2
      · rw [h2]
        exact ⟨hund2, updVal_entryInv _ oid _ hv (entryInv_getD idx attr h)⟩
      · exact h.2 p h2
    · have hv2 : (objGetD o attr d).hashable = false := by
        simpa using hv
      rw [(addIndexAttr_err d o idx oid attr hund2 hv2).1]
      refine ⟨keys_nodup_alistSet _ _ _ h.1, fun p hp => ?_⟩
      rcases mem_alistSet _ _ _ _ hp with h2 | h2
      · rw [h2]
        exact ⟨hund2, entryInv_getD idx attr h⟩
      · exact h.2 p h2

theorem IdxInv_removeIndex (idx : PyIdx) (oid : Nat) (attr : String)
    (val : Value) (h : IdxInv idx) :
    IdxInv (removeIndex idx oid attr val).1 := by
  cases hg : alistGet attr idx with
  | none =>
    rw [removeIndex_absent _ _ _ _ hg]
    exact h
  | some m =>
    by_cases hv : val.hashable = true
    · have hm := h.2 (attr, m) (alistGet_mem _ _ _ hg)
      by_cases hc : removeVal m oid val = []
      · have he : (removeIndex idx oid attr val).1 = alistDel attr idx := by
          simp [removeIndex, hg, hv, hc]
        rw [he]
        exact ⟨keys_nodup_alistDel _ _ h.1,
          fun p hp => h.2 p (mem_alistDel _ _ _ hp)⟩
      · have he : (removeIndex idx oid attr val).1 =
            alistSet attr (removeVal m oid val) idx := by
          simp [removeIndex, hg, hv, hc]
        rw [he]
        refine ⟨keys_nodup_alistSet _ _ _ h.1, fun p hp => ?_⟩
        rcases mem_alistSet _ _ _ _ hp with h2 | h2
        · rw [h2]
          exact ⟨hm.1, removeVal_entryInv m oid val hm.2⟩
        · exact h.2 p h2
    · have hv2 : val.hashable = false := by simpa using hv
      rw [removeIndex_err idx oid attr val m hg hv2]
      exact h

theorem noEmptyAttr_removeIndex (idx : PyIdx) (oid : Nat) (attr : String)
    (val : Value) (h : noEmptyAttr idx) :
    noEmptyAttr (removeIndex idx oid attr val).1 := by
  cases hg : alistGet attr idx with
  | none =>
    rw [removeIndex_absent _ _ _ _ hg]
    exact h
  | some m =>
    by_cases hv : val.hashable = true
    · by_cases hc : removeVal m oid val = []
      · have he : (removeIndex idx oid attr val).1 = alistDel attr idx := by
          simp [removeIndex, hg, hv, hc]
        rw [he]
        exact fun p hp => h p (mem_alistDel _ _ _ hp)
      · have he : (removeIndex idx oid attr val).1 =
            alistSet attr (removeVal m oid val) idx := by
          simp [removeIndex, hg, hv, hc]
        rw [he]
        intro p hp
        rcases mem_alistSet _ _ _ _ hp with h2 | h2
        · rw [h2]
          exact hc
        · exact h p h2
    · have hv2 : val.hashable = false := by simpa using hv
      rw [removeIndex_err idx oid attr val m hg hv2]
      exact h

theorem noEmptyAttr_addIndexAttr_ok (d : Value) (o : Obj) (idx : PyIdx)
    (oid : Nat) (attr : String)
    (hok : (addIndexAttr d o idx oid attr).2 = none) (h : noEmptyAttr idx) :
    noEmptyAttr (addIndexAttr d o idx oid attr).1 := by
  by_cases hund : underscored attr = true
  · rw [addIndexAttr_under d o idx oid attr hund]
    exact h
  · have hund2 : underscored attr = false := by simpa using hund
    by_cases hv : (objGetD o attr d).hashable = true
    · have he : addIndexAttr d o idx oid attr =
          (alistSet attr
            (alistSet (objGetD o attr d)
              (if oid ∈ ((alistGet (objGetD o attr d)
                    ((alistGet attr idx).getD [])).getD []) then
                ((alistGet (objGetD o attr d)
                    ((alistGet attr idx).getD [])).getD [])
              else ((alistGet (objGetD o attr d)
                    ((alistGet attr idx).getD [])).getD []) ++ [oid])
              ((alistGet attr idx).getD []))
            idx, none) := by
        simp [addIndexAttr, hund2, hv]
      rw [he]
      intro p hp
      rcases mem_alistSet _ _ _ _ hp with h2 | h2
      · rw [h2]
        exact alistSet_ne_nil _ _ _
      · exact h p h2
    · have hv2 : (objGetD o attr d).hashable = false := by simpa using hv
      rw [(addIndexAttr_err d o idx oid attr hund2 hv2).1] at hok
      simp at hok

/-!
Invariant propagation through add_object and __setattr__ and histories.
-/

theorem addObjectLoop_fields (oid : Nat) (attrs : List String) :
    ∀ c : Config, (addObjectLoop c oid attrs).1.store = c.store ∧
      (addObjectLoop c oid attrs).1.attrDefault = c.attrDefault ∧
      (addObjectLoop c oid attrs).1.subs = c.subs := by
  induction attrs with
  | nil => exact fun c => ⟨rfl, rfl, rfl⟩
  | cons a rest ih =>
    intro c
    cases hstep : addIndexAttr c.attrDefault (c.store oid) c.index oid a with
    | mk idx1 err =>
      cases err with
      | none =>
        have he : addObjectLoop c oid (a :: rest) =
            addObjectLoop { c with index := idx1 } oid rest := by
          simp [addObjectLoop, hstep]
        rw [he]
        exact ih { c with index := idx1 }
      | some e =>
        have he : addObjectLoop c oid (a :: rest) =
            ({ c with index := idx1 }, some e) := by
          simp [addObjectLoop, hstep]
        rw [he]
        exact ⟨rfl, rfl, rfl⟩

theorem IdxInv_addObjectLoop (oid : Nat) (attrs : List String) :
    ∀ c : Config, IdxInv c.index →
      IdxInv (addObjectLoop c oid attrs).1.index := by
  induction attrs with
  | nil => exact fun c h => h
  | cons a rest ih =>
    intro c h
    cases hstep : addIndexAttr c.attrDefault (c.store oid) c.index oid a with
    | mk idx1 err =>
      have h1 : IdxInv idx1 := by
        have := IdxInv_addIndexAttr c.attrDefault (c.store oid) c.index oid a h
        rwa [hstep] at this
      cases err with
      | none =>
        have he : addObjectLoop c oid (a :: rest) =
            addObjectLoop { c with index := idx1 } oid rest := by
          simp [addObjectLoop, hstep]
        rw [he]
        exact ih { c with index := idx1 } h1
      | some e =>
        have he : addObjectLoop c oid (a :: rest) =
            ({ c with index := idx1 }, some e) := by
          simp [addObjectLoop, hstep]
        rw [he]
        exact h1

theorem noEmptyAttr_addObjectLoop_ok (oid : Nat) (attrs : List String) :
    ∀ c c2 : Config, addObjectLoop c oid attrs = (c2, none) →
      noEmptyAttr c.index → noEmptyAttr c2.index := by
  induction attrs with
  | nil =>
    intro c c2 h hne
    have : c = c2 := by simpa [addObjectLoop] using congrArg Prod.fst h
    exact this ▸ hne
  | cons a rest ih =>
    intro c c2 h hne
    cases hstep : addIndexAttr c.attrDefault (c.store oid) c.index oid a with
    | mk idx1 err =>
      cases err with
      | none =>
        rw [addObjectLoop, hstep] at h
        have hok : (addIndexAttr c.attrDefault (c.store oid) c.index oid a).2 =
            none := by
          rw [hstep]
        have h1 : noEmptyAttr idx1 := by
          have := noEmptyAttr_addIndexAttr_ok c.attrDefault (c.store oid)
            c.index oid a hok hne
          rwa [hstep] at this
        exact ih { c with index := idx1 } c2 h h1
      | some e =>
        rw [addObjectLoop, hstep] at h
        simp at h

/-- Successful add_object loop: the memberships added are exactly the
non-underscore attributes in the list, each filed under the current value
(with the remembered default for a missing attribute). -/
theorem addObjectLoop_ok_mem (oid : Nat) (attrs : List String) :
    ∀ c c2 : Config, addObjectLoop c oid attrs = (c2, none) →
      ∀ a w o2, memBucket c2.index a w o2 = true ↔
        (memBucket c.index a w o2 = true ∨
          (o2 = oid ∧ a ∈ attrs ∧ underscored a = false ∧
            w = objGetD (c.store oid) a c.attrDefault)) := by
  induction attrs with
  | nil =>
    intro c c2 h a w o2
    have : c = c2 := by simpa [addObjectLoop] using congrArg Prod.fst h
    subst this
    simp
  | cons b rest ih =>
    intro c c2 h a w o2
    cases hstep : addIndexAttr c.attrDefault (c.store oid) c.index oid b with
    | mk idx1 err =>
      cases err with
      | some e =>
        rw [addObjectLoop, hstep] at h
        simp at h
      | none =>
        rw [addObjectLoop, hstep] at h
        have hrest := ih { c with index := idx1 } c2 h a w o2
        by_cases hund : underscored b = true
        · have hu : addIndexAttr c.attrDefault (c.store oid) c.index oid b =
              (c.index, none) :=
            addIndexAttr_under _ _ _ _ _ hund
          rw [hu] at hstep
          have hidx : idx1 = c.index := by
            simpa using congrArg Prod.fst hstep.symm
          rw [hidx] at hrest
          rw [hrest]
          constructor
          · rintro (hm | ⟨h1, h2, h3, h4⟩)
            · exact Or.inl hm
            · exact Or.inr ⟨h1, List.mem_cons_of_mem _ h2, h3, h4⟩
          · rintro (hm | ⟨h1, h2, h3, h4⟩)
            · exact Or.inl hm
            · rcases List.mem_cons.1 h2 with h5 | h5
              · rw [h5] at h3
                rw [h3] at hund
                simp at hund
              · exact Or.inr ⟨h1, h5, h3, h4⟩
        · have hund2 : underscored b = false := by simpa using hund
          by_cases hv : (objGetD (c.store oid) b c.attrDefault).hashable = true
          · have hadd := addIndexAttr_ok c.attrDefault (c.store oid) c.index
              oid b hund2 hv
            have hmem1 : ∀ a0 w0 o0, memBucket idx1 a0 w0 o0 = true ↔
                (memBucket c.index a0 w0 o0 = true ∨
                  (a0 = b ∧ w0 = objGetD (c.store oid) b c.attrDefault ∧
                    o0 = oid)) := by
              intro a0 w0 o0
              have := hadd.2 a0 w0 o0
              rwa [hstep] at this
            rw [hrest, hmem1 a w o2]
            constructor
            · rintro ((hm | ⟨h1, h2, h3⟩) | ⟨h1, h2, h3, h4⟩)
              · exact Or.inl hm
              · exact Or.inr ⟨h3, h1 ▸ List.mem_cons_self b rest, h1 ▸ hund2,
                  by rw [h2, h1]⟩
              · exact Or.inr ⟨h1, List.mem_cons_of_mem _ h2, h3, h4⟩
            · rintro (hm | ⟨h1, h2, h3, h4⟩)
              · exact Or.inl (Or.inl hm)
              · rcases List.mem_cons.1 h2 with h5 | h5
                · exact Or.inl (Or.inr ⟨h5, by rw [h4, h5], h1⟩)
                · exact Or.inr ⟨h1, h5, h3, h4⟩
          · have hv2 : (objGetD (c.store oid) b c.attrDefault).hashable =
                false := by simpa using hv
            have hadd := addIndexAttr_err c.attrDefault (c.store oid) c.index
              oid b hund2 hv2
            rw [hadd.1] at hstep
            simp at hstep

theorem setStore_self (c : Config) (oid : Nat) (name : String) (v : Value) :
    setStore c oid name v oid = objSet (c.store oid) name v := by
  simp [setStore]

theorem setStore_ne (c : Config) (oid n : Nat) (name : String) (v : Value)
    (h : n ≠ oid) : setStore c oid name v n = c.store n := by
  simp [setStore, h]

theorem objGet_setStore_self (c : Config) (oid : Nat) (name : String)
    (v : Value) : objGet (setStore c oid name v oid) name = some v := by
  rw [setStore_self]
  exact alistGet_set_self _ _ _

theorem objGet_setStore_other (c : Config) (oid : Nat) (name a : String)
    (v : Value) (h : a ≠ name) :
    objGet (setStore c oid name v oid) a = objGet (c.store oid) a := by
  rw [setStore_self]
  exact alistGet_set_ne _ _ _ _ h

/-- Case analysis of add_object: success extends the subscriber set, a
raised TypeError returns the partial state of the loop. -/
theorem addObject_cases (c : Config) (oid : Nat) (aA iA : List String)
    (d : Value) :
    (∃ c3, addObjectLoop { c with attrDefault := d } oid
        (computeAttrs ((c.store oid).map Prod.fst) iA aA) = (c3, none) ∧
      addObject c oid aA iA d =
        ({ c3 with subs :=
            if oid ∈ c3.subs then c3.subs else c3.subs ++ [oid] }, none)) ∨
    (∃ c3 e2, addObjectLoop { c with attrDefault := d } oid
        (computeAttrs ((c.store oid).map Prod.fst) iA aA) = (c3, some e2) ∧
      addObject c oid aA iA d = (c3, some e2)) := by
  cases hl : addObjectLoop { c with attrDefault := d } oid
      (computeAttrs ((c.store oid).map Prod.fst) iA aA) with
  | mk c3 err =>
    cases err with
    | none => exact Or.inl ⟨c3, rfl, by simp [addObject, hl]⟩
    | some e2 => exact Or.inr ⟨c3, e2, rfl, by simp [addObject, hl]⟩

theorem setAttrStep_not_sub (c : Config) (oid : Nat) (name : String)
    (v : Value) (hs : oid ∉ c.subs) :
    setAttrStep c oid name v =
      ({ c with store := setStore c oid name v }, none) := by
  simp [setAttrStep, hs]

/-- Case analysis of __setattr__ on a subscribed object: either the
removal raises, or removal succeeds and the result is whatever
_add_index produces on the updated heap. -/
theorem setAttrStep_sub_cases (c : Config) (oid : Nat) (name : String)
    (v : Value) (hs : oid ∈ c.subs) :
    (∃ idx1 e2,
      removeIndex c.index oid name
        ((objGet (c.store oid) name).getD Value.vnone) = (idx1, some e2) ∧
      setAttrStep c oid name v =
        ({ c with store := setStore c oid name v, index := idx1 },
          some e2)) ∨
    (∃ idx1 idx2 r,
      removeIndex c.index oid name
        ((objGet (c.store oid) name).getD Value.vnone) = (idx1, none) ∧
      addIndexAttr c.attrDefault (setStore c oid name v oid) idx1 oid name =
        (idx2, r) ∧
      setAttrStep c oid name v =
        ({ c with store := setStore c oid name v, index := idx2 }, r)) := by
  cases hr : removeIndex c.index oid name
      ((objGet (c.store oid) name).getD Value.vnone) with
  | mk idx1 err =>
    cases err with
    | some e2 =>
      exact Or.inl ⟨idx1, e2, rfl, by simp [setAttrStep, hs, hr]⟩
    | none =>
      cases ha : addIndexAttr c.attrDefault (setStore c oid name v oid) idx1
          oid name with
      | mk idx2 r =>
        exact Or.inr ⟨idx1, idx2, r, rfl, ha, by simp [setAttrStep, hs, hr, ha]⟩

/-- A successful _remove_index removes exactly the (attr, val, oid)
membership (whether or not the attribute or bucket was present). -/
theorem removeIndex_mem_of_ok (idx : PyIdx) (oid : Nat) (attr : String)
    (val : Value) (idx1 : PyIdx)
    (hr : removeIndex idx oid attr val = (idx1, none)) (hinv : IdxInv idx) :
    ∀ a w o, memBucket idx1 a w o = true ↔
      (memBucket idx a w o = true ∧ ¬(a = attr ∧ w = val ∧ o = oid)) := by
  cases hg : alistGet attr idx with
  | none =>
    rw [removeIndex_absent idx oid attr val hg] at hr
    have hidx : idx1 = idx := by
      simpa using congrArg Prod.fst hr.symm
    subst hidx
    intro a w o
    by_cases ha : a = attr
    · rw [ha, memBucket_absent _ attr hg]
      simp
    · simp [ha]
  | some m =>
    by_cases hv : val.hashable = true
    · have hnd : ∀ b, alistGet val m = some b → b.Nodup := by
        intro b hb
        exact ((hinv.2 (attr, m) (alistGet_mem _ _ _ hg)).2.2 (val, b)
          (alistGet_mem _ _ _ hb)).2.2
      have hro := removeIndex_ok idx oid attr val m hg hv hnd
      intro a w o
      have h2 := hro.2 a w o
      rwa [hr] at h2
    · have hv2 : val.hashable = false := by simpa using hv
      rw [removeIndex_err idx oid attr val m hg hv2] at hr
      simp at hr

/-- A successful _add_index adds exactly the (attr, current value, oid)
membership, or nothing when the attribute is underscore-prefixed. -/
theorem addIndexAttr_mem_of_ok (d : Value) (o : Obj) (idx : PyIdx)
    (oid : Nat) (attr : String) (idx2 : PyIdx)
    (ha : addIndexAttr d o idx oid attr = (idx2, none)) :
    ∀ a w o2, memBucket idx2 a w o2 = true ↔
      (memBucket idx a w o2 = true ∨
        (underscored attr = false ∧ a = attr ∧
          w = objGetD o attr d ∧ o2 = oid)) := by
  by_cases hund : underscored attr = true
  · rw [addIndexAttr_under d o idx oid attr hund] at ha
    have hidx : idx2 = idx := by
      simpa using congrArg Prod.fst ha.symm
    subst hidx
    intro a w o2
    simp [hund]
  · have hund2 : underscored attr = false := by simpa using hund
    by_cases hv : (objGetD o attr d).hashable = true
    · have hadd := (addIndexAttr_ok d o idx oid attr hund2 hv).2
      intro a w o2
      have h2 := hadd a w o2
      rw [ha] at h2
      rw [h2]
      simp [hund2]
    · have hv2 : (objGetD o attr d).hashable = false := by simpa using hv
      rw [(addIndexAttr_err d o idx oid attr hund2 hv2).1] at ha
      simp at ha

/-- In a well-formed index no underscore-prefixed attribute is filed. -/
theorem memBucket_underscore (idx : PyIdx) (hinv : IdxInv idx) (a : String)
    (hu : underscored a = true) (w : Value) (o : Nat) :
    memBucket idx a w o = false := by
  cases hg : alistGet a idx with
  | none => exact memBucket_absent _ _ hg _ _
  | some m =>
    have h1 := (hinv.2 (a, m) (alistGet_mem _ _ _ hg)).1
    rw [hu] at h1
    exact absurd h1 (by simp)

/-- Value keys of a well-formed index are hashable. -/
theorem memBucket_key_hashable (idx : PyIdx) (hinv : IdxInv idx) (a : String)
    (w : Value) (o : Nat) (h : memBucket idx a w o = true) :
    w.hashable = true := by
  cases hg : alistGet a idx with
  | none =>
    rw [memBucket_absent _ _ hg] at h
    simp at h
  | some m =>
    rw [memBucket_some idx a m hg] at h
    cases hb : alistGet w m with
    | none =>
      rw [mmem_none m w o hb] at h
      simp at h
    | some b =>
      exact ((hinv.2 (a, m) (alistGet_mem _ _ _ hg)).2.2 (w, b)
        (alistGet_mem _ _ _ hb)).1

/-!
The good-state invariant: along histories in which no operation raised,
the index is well formed, keeps no empty attribute entry, files only
subscribed objects, and files every object under its current value.
-/

/-- Every filed object is subscribed. -/
def memSubs (c : Config) : Prop :=
  ∀ a w o, memBucket c.index a w o = true → o ∈ c.subs

/-- Positivity: an object filed anywhere under attribute a is in
particular filed under its current value of a. -/
def posInv (c : Config) : Prop :=
  ∀ o a w v2, memBucket c.index a w o = true →
    objGet (c.store o) a = some v2 → memBucket c.index a v2 o = true

def GoodInv (c : Config) : Prop :=
  IdxInv c.index ∧ noEmptyAttr c.index ∧ memSubs c ∧ posInv c

theorem GoodInv_addObject (c c2 : Config) (oid : Nat) (aA iA : List String)
    (d : Value) (h : GoodInv c)
    (hstep : addObject c oid aA iA d = (c2, none)) : GoodInv c2 := by
  rcases addObject_cases c oid aA iA d with ⟨c3, hl, he⟩ | ⟨c3, e2, hl, he⟩
  · rw [he] at hstep
    have hc2 : c2 = { c3 with subs :=
        if oid ∈ c3.subs then c3.subs else c3.subs ++ [oid] } := by
      simpa using congrArg Prod.fst hstep.symm
    subst hc2
    have hf := addObjectLoop_fields oid
      (computeAttrs ((c.store oid).map Prod.fst) iA aA)
      { c with attrDefault := d }
    rw [hl] at hf
    have hmem := addObjectLoop_ok_mem oid
      (computeAttrs ((c.store oid).map Prod.fst) iA aA)
      { c with attrDefault := d } c3 hl
    have hIdx : IdxInv c3.index := by
      have := IdxInv_addObjectLoop oid
        (computeAttrs ((c.store oid).map Prod.fst) iA aA)
        { c with attrDefault := d } h.1
      rwa [hl] at this
    have hne : noEmptyAttr c3.index :=
      noEmptyAttr_addObjectLoop_ok oid _ { c with attrDefault := d } c3 hl
        h.2.1
    refine ⟨hIdx, hne, ?_, ?_⟩
    · intro a w o hm
      have hm3 : memBucket c3.index a w o = true := hm
      rcases (hmem a w o).1 hm3 with hm0 | ⟨ho, _, _, _⟩
      · have ho : o ∈ c.subs := h.2.2.1 a w o hm0
        have ho3 : o ∈ c3.subs := by
          rw [hf.2.2]
          exact ho
        show o ∈ (if oid ∈ c3.subs then c3.subs else c3.subs ++ [oid])
        by_cases hin : oid ∈ c3.subs
        · rw [if_pos hin]
          exact ho3
        · rw [if_neg hin]
          exact List.mem_append_left _ ho3
      · show o ∈ (if oid ∈ c3.subs then c3.subs else c3.subs ++ [oid])
        rw [ho]
        by_cases hin : oid ∈ c3.subs
        · rw [if_pos hin]
          exact hin
        · rw [if_neg hin]
          exact List.mem_append_right _ (by simp)
    · intro o a w v2 hm hg
      have hm3 : memBucket c3.index a w o = true := hm
      have hg3 : objGet (c3.store o) a = some v2 := hg
      rw [hf.1] at hg3
      rcases (hmem a w o).1 hm3 with hm0 | ⟨ho, hain, hund, hw⟩
      · have hpos : memBucket c.index a v2 o = true :=
          h.2.2.2 o a w v2 hm0 hg3
        exact (hmem a v2 o).2 (Or.inl hpos)
      · subst ho
        refine (hmem a v2 o).2 (Or.inr ⟨rfl, hain, hund, ?_⟩)
        show v2 = objGetD (c.store o) a d
        rw [objGetD]
        rw [show objGet (c.store o) a = some v2 from hg3]
        rfl
  · rw [he] at hstep
    simp at hstep

theorem GoodInv_setAttr (c c2 : Config) (oid : Nat) (name : String)
    (v : Value) (h : GoodInv c)
    (hstep : setAttrStep c oid name v = (c2, none)) : GoodInv c2 := by
  by_cases hs : oid ∈ c.subs
  · rcases setAttrStep_sub_cases c oid name v hs with
      ⟨idx1, e2, hr, he⟩ | ⟨idx1, idx2, r, hr, ha, he⟩
    · rw [he] at hstep
      simp at hstep
    · rw [he] at hstep
      have hr2 : r = none := by simpa using congrArg Prod.snd hstep
      subst hr2
      have hc2 :
          c2 = { c with store := setStore c oid name v, index := idx2 } := by
        simpa using congrArg Prod.fst hstep.symm
      subst hc2
      have hrm := removeIndex_mem_of_ok c.index oid name
        ((objGet (c.store oid) name).getD Value.vnone) idx1 hr h.1
      have ham := addIndexAttr_mem_of_ok c.attrDefault
        (setStore c oid name v oid) idx1 oid name idx2 ha
      have hI1 : IdxInv idx1 := by
        have := IdxInv_removeIndex c.index oid name
          ((objGet (c.store oid) name).getD Value.vnone) h.1
        rwa [hr] at this
      have hI2 : IdxInv idx2 := by
        have := IdxInv_addIndexAttr c.attrDefault (setStore c oid name v oid)
          idx1 oid name hI1
        rwa [ha] at this
      have hN1 : noEmptyAttr idx1 := by
        have := noEmptyAttr_removeIndex c.index oid name
          ((objGet (c.store oid) name).getD Value.vnone) h.2.1
        rwa [hr] at this
      have hN2 : noEmptyAttr idx2 := by
        have hok : (addIndexAttr c.attrDefault (setStore c oid name v oid)
            idx1 oid name).2 = none := by
          rw [ha]
        have := noEmptyAttr_addIndexAttr_ok c.attrDefault
          (setStore c oid name v oid) idx1 oid name hok hN1
        rwa [ha] at this
      refine ⟨hI2, hN2, ?_, ?_⟩
      · intro a w o hm
        have hm2 : memBucket idx2 a w o = true := hm
        rcases (ham a w o).1 hm2 with hm1 | ⟨_, _, _, ho⟩
        · have hm0 := ((hrm a w o).1 hm1).1
          exact h.2.2.1 a w o hm0
        · show o ∈ c.subs
          rw [ho]
          exact hs
      · intro o a w v2 hm hg
        have hm2 : memBucket idx2 a w o = true := hm
        have hg2 : objGet (setStore c oid name v o) a = some v2 := hg
        show memBucket idx2 a v2 o = true
        by_cases hoo : o = oid
        · subst hoo
          by_cases haa : a = name
          · subst haa
            have hv2 : v2 = v := by
              rw [objGet_setStore_self] at hg2
              exact (Option.some_inj.1 hg2).symm
            by_cases hund : underscored a = true
            · have hfalse := memBucket_underscore idx2 hI2 a hund w o
              rw [hfalse] at hm2
              simp at hm2
            · have hund2 : underscored a = false := by simpa using hund
              refine (ham a v2 o).2 (Or.inr ⟨hund2, rfl, ?_, rfl⟩)
              show v2 = objGetD (setStore c o a v o) a c.attrDefault
              rw [objGetD, objGet_setStore_self]
              simpa using hv2
          · have hg3 : objGet (c.store o) a = some v2 := by
              rwa [objGet_setStore_other c o name a v haa] at hg2
            rcases (ham a w o).1 hm2 with hm1 | ⟨_, ha2, _, _⟩
            · have hm0 := ((hrm a w o).1 hm1).1
              have hpos := h.2.2.2 o a w v2 hm0 hg3
              have hsur : memBucket idx1 a v2 o = true :=
                (hrm a v2 o).2 ⟨hpos, fun hx => haa hx.1⟩
              exact (ham a v2 o).2 (Or.inl hsur)
            · exact absurd ha2 haa
        · have hg3 : objGet (c.store o) a = some v2 := by
            rwa [setStore_ne c oid o name v hoo] at hg2
          rcases (ham a w o).1 hm2 with hm1 | ⟨_, _, _, ho⟩
          · have hm0 := ((hrm a w o).1 hm1).1
            have hpos := h.2.2.2 o a w v2 hm0 hg3
            have hsur : memBucket idx1 a v2 o = true :=
              (hrm a v2 o).2 ⟨hpos, fun hx => hoo hx.2.2⟩
            exact (ham a v2 o).2 (Or.inl hsur)
          · exact absurd ho hoo
  · rw [setAttrStep_not_sub c oid name v hs] at hstep
    have hc2 : c2 = { c with store := setStore c oid name v } := by
      simpa using congrArg Prod.fst hstep.symm
    subst hc2
    refine ⟨h.1, h.2.1, h.2.2.1, ?_⟩
    intro o a w v2 hm hg
    have hm2 : memBucket c.index a w o = true := hm
    have ho : o ∈ c.subs := h.2.2.1 a w o hm2
    have hoo : o ≠ oid := fun he2 => hs (he2 ▸ ho)
    have hg3 : objGet (c.store o) a = some v2 := by
      have hg2 : objGet (setStore c oid name v o) a = some v2 := hg
      rwa [setStore_ne c oid o name v hoo] at hg2
    exact h.2.2.2 o a w v2 hm2 hg3

theorem GoodInv_step (c c2 : Config) (e : Event) (h : GoodInv c)
    (hstep : step c e = (c2, none)) : GoodInv c2 := by
  cases e with
  | add oid aA iA d => exact GoodInv_addObject c c2 oid aA iA d h hstep
  | set oid name v => exact GoodInv_setAttr c c2 oid name v h hstep

theorem IdxInv_step_any (c : Config) (e : Event) (h : IdxInv c.index) :
    IdxInv ((step c e).1).index := by
  cases e with
  | add oid aA iA d =>
    show IdxInv (addObject c oid aA iA d).1.index
    rcases addObject_cases c oid aA iA d with ⟨c3, hl, he⟩ | ⟨c3, e2, hl, he⟩
    · rw [he]
      have := IdxInv_addObjectLoop oid
        (computeAttrs ((c.store oid).map Prod.fst) iA aA)
        { c with attrDefault := d } h
      rwa [hl] at this
    · rw [he]
      have := IdxInv_addObjectLoop oid
        (computeAttrs ((c.store oid).map Prod.fst) iA aA)
        { c with attrDefault := d } h
      rwa [hl] at this
  | set oid name v =>
    show IdxInv (setAttrStep c oid name v).1.index
    by_cases hs : oid ∈ c.subs
    · rcases setAttrStep_sub_cases c oid name v hs with
        ⟨idx1, e2, hr, he⟩ | ⟨idx1, idx2, r, hr, ha, he⟩
      · rw [he]
        have := IdxInv_removeIndex c.index oid name
          ((objGet (c.store oid) name).getD Value.vnone) h
        rwa [hr] at this
      · rw [he]
        have hI1 : IdxInv idx1 := by
          have := IdxInv_removeIndex c.index oid name
            ((objGet (c.store oid) name).getD Value.vnone) h
          rwa [hr] at this
        have := IdxInv_addIndexAttr c.attrDefault (setStore c oid name v oid)
          idx1 oid name hI1
        rwa [ha] at this
    · rw [setAttrStep_not_sub c oid name v hs]
      exact h

/-- Along any history, raising or not, the index stays well formed: in
particular every bucket is nonempty and duplicate-free. -/
theorem IdxInv_steps (evs : List Event) :
    ∀ c : Config, IdxInv c.index → IdxInv (steps c evs).index := by
  induction evs with
  | nil => exact fun c h => h
  | cons e t ih =>
    intro c h
    exact ih (step c e).1 (IdxInv_step_any c e h)

/-- Along an error-free history the full good-state invariant holds. -/
theorem GoodInv_stepsOk (evs : List Event) :
    ∀ c c2 : Config, GoodInv c → stepsOk c evs = some c2 → GoodInv c2 := by
  induction evs with
  | nil =>
    intro c c2 h he
    rw [stepsOk] at he
    exact (Option.some_inj.1 he) ▸ h
  | cons e t ih =>
    intro c c2 h he
    rw [stepsOk] at he
    cases hst : step c e with
    | mk c1 err =>
      rw [hst] at he
      cases err with
      | none => exact ih c1 c2 (GoodInv_step c c1 e h hst) he
      | some e2 => simp at he

/-- An error-free history computes the same state as the error-tolerant
runner. -/
theorem stepsOk_steps (evs : List Event) :
    ∀ c c2 : Config, stepsOk c evs = some c2 → steps c evs = c2 := by
  induction evs with
  | nil =>
    intro c c2 he
    rw [stepsOk] at he
    rw [steps]
    exact Option.some_inj.1 he
  | cons e t ih =>
    intro c c2 he
    rw [stepsOk] at he
    rw [steps]
    cases hst : step c e with
    | mk c1 err =>
      rw [hst] at he
      cases err with
      | none => exact ih c1 c2 he
      | some e2 => simp at he

theorem GoodInv_init (s0 : Nat → Obj) : GoodInv (initConfig s0) := by
  refine ⟨⟨List.nodup_nil, ?_⟩, ?_, ?_, ?_⟩
  · intro p hp
    simp [initConfig] at hp
  · intro p hp
    simp [initConfig] at hp
  · intro a w o hm
    simp [initConfig, memBucket, alistGet] at hm
  · intro o a w v2 hm hg
    simp [initConfig, memBucket, alistGet] at hm

/-!
Characterisation of get_by_attribute: with hashable query values it
returns the intersection over the pairs of the union of the buckets of
the unpacked values, independently of the evaluation order.
-/

/-- Predicate matched by one keyword pair: membership in the bucket of at
least one of the unpacked values. -/
def matchQ (idx : PyIdx) (a : String) (qv : QVal) (o : Nat) : Prop :=
  ∃ v ∈ valsOf qv, memBucket idx a v o = true

theorem mem_union_list (acc b : List Nat) (o : Nat) :
    o ∈ acc ++ b.filter (fun x => if x ∈ acc then false else true) ↔
      (o ∈ acc ∨ o ∈ b) := by
  rw [List.mem_append, List.mem_filter]
  constructor
  · rintro (h | ⟨h1, h2⟩)
    · exact Or.inl h
    · exact Or.inr h1
  · rintro (h | h)
    · exact Or.inl h
    · by_cases ha : o ∈ acc
      · exact Or.inl ha
      · exact Or.inr ⟨h, by simp [ha]⟩

theorem collectVals_spec (idx : PyIdx) (a : String) :
    ∀ (vs : List Value) (acc : List Nat),
      (∀ v ∈ vs, v.hashable = true) →
      ∃ r, collectVals idx a vs acc = .ok r ∧
        ∀ o, o ∈ r ↔ (o ∈ acc ∨ ∃ v ∈ vs, memBucket idx a v o = true) := by
  intro vs
  induction vs with
  | nil =>
    intro acc hh
    exact ⟨acc, rfl, fun o => by simp [collectVals]⟩
  | cons v vt ih =>
    intro acc hh
    have hvt : ∀ u ∈ vt, u.hashable = true :=
      fun u hu => hh u (List.mem_cons_of_mem _ hu)
    cases hg : alistGet a idx with
    | none =>
      have he : collectVals idx a (v :: vt) acc = collectVals idx a vt acc := by
        simp [collectVals, hg]
      rcases ih acc hvt with ⟨r, hr, hmem⟩
      refine ⟨r, by rw [he, hr], fun o => ?_⟩
      rw [hmem o]
      constructor
      · rintro (h1 | ⟨u, hu, hmu⟩)
        · exact Or.inl h1
        · exact Or.inr ⟨u, List.mem_cons_of_mem _ hu, hmu⟩
      · rintro (h1 | ⟨u, hu, hmu⟩)
        · exact Or.inl h1
        · rcases List.mem_cons.1 hu with h2 | h2
          · rw [h2, memBucket_absent idx a hg] at hmu
            simp at hmu
          · exact Or.inr ⟨u, h2, hmu⟩
    | some m =>
      have hv : v.hashable = true := hh v (List.mem_cons_self _ _)
      cases hb : alistGet v m with
      | none =>
        have he : collectVals idx a (v :: vt) acc =
            collectVals idx a vt acc := by
          simp [collectVals, hg, hv, hb]
        rcases ih acc hvt with ⟨r, hr, hmem⟩
        refine ⟨r, by rw [he, hr], fun o => ?_⟩
        rw [hmem o]
        have hvmem : memBucket idx a v o = false := by
          rw [memBucket_some idx a m hg]
          exact mmem_none m v o hb
        constructor
        · rintro (h1 | ⟨u, hu, hmu⟩)
          · exact Or.inl h1
          · exact Or.inr ⟨u, List.mem_cons_of_mem _ hu, hmu⟩
        · rintro (h1 | ⟨u, hu, hmu⟩)
          · exact Or.inl h1
          · rcases List.mem_cons.1 hu with h2 | h2
            · rw [h2, hvmem] at hmu
              simp at hmu
            · exact Or.inr ⟨u, h2, hmu⟩
      | some b =>
        have he : collectVals idx a (v :: vt) acc =
            collectVals idx a vt
              (acc ++ b.filter (fun x => if x ∈ acc then false else true)) := by
          simp [collectVals, hg, hv, hb]
        rcases ih (acc ++ b.filter (fun x => if x ∈ acc then false else true))
          hvt with ⟨r, hr, hmem⟩
        refine ⟨r, by rw [he, hr], fun o => ?_⟩
        rw [hmem o, mem_union_list]
        have hvmem : (memBucket idx a v o = true) ↔ o ∈ b := by
          rw [memBucket_some idx a m hg]
          exact mmem_some m v b o hb
        constructor
        · rintro ((h1 | h1) | ⟨u, hu, hmu⟩)
          · exact Or.inl h1
          · exact Or.inr ⟨v, List.mem_cons_self _ _, hvmem.2 h1⟩
          · exact Or.inr ⟨u, List.mem_cons_of_mem _ hu, hmu⟩
        · rintro (h1 | ⟨u, hu, hmu⟩)
          · exact Or.inl (Or.inl h1)
          · rcases List.mem_cons.1 hu with h2 | h2
            · exact Or.inl (Or.inr (hvmem.1 (h2 ▸ hmu)))
            · exact Or.inr ⟨u, h2, hmu⟩

theorem gbaLoop_some_spec (idx : PyIdx) :
    ∀ (pairs : List (String × QVal)) (r : List Nat),
      (∀ p ∈ pairs, ∀ u ∈ valsOf p.2, u.hashable = true) →
      ∃ s, gbaLoop idx pairs (some r) = .ok (some s) ∧
        ∀ o, o ∈ s ↔ (o ∈ r ∧ ∀ p ∈ pairs, matchQ idx p.1 p.2 o) := by
  intro pairs
  induction pairs with
  | nil =>
    intro r hh
    exact ⟨r, rfl, fun o => by simp [gbaLoop]⟩
  | cons p pt ih =>
    intro r hh
    obtain ⟨a, qv⟩ := p
    rcases collectVals_spec idx a (valsOf qv) []
      (hh (a, qv) (List.mem_cons_self _ _)) with ⟨single, hcv, hsing⟩
    have hsing2 : ∀ o, o ∈ single ↔ matchQ idx a qv o := by
      intro o
      rw [hsing o]
      simp [matchQ]
    have hres1 : ∀ o, (o ∈ r.filter (fun x => (x ∈ single : Bool))) ↔
        (o ∈ r ∧ matchQ idx a qv o) := by
      intro o
      rw [List.mem_filter]
      simp [hsing2 o]
    by_cases hempty : r.filter (fun x => (x ∈ single : Bool)) = []
    · refine ⟨[], by simp [gbaLoop, hcv, hempty], fun o => ?_⟩
      simp only [List.not_mem_nil, false_iff]
      rintro ⟨hor, hall⟩
      have hmem2 : o ∈ r.filter (fun x => (x ∈ single : Bool)) :=
        (hres1 o).2 ⟨hor, hall (a, qv) (List.mem_cons_self _ _)⟩
      rw [hempty] at hmem2
      simp at hmem2
    · have he : gbaLoop idx ((a, qv) :: pt) (some r) =
          gbaLoop idx pt (some (r.filter (fun x => (x ∈ single : Bool)))) := by
        simp [gbaLoop, hcv, hempty]
      rcases ih (r.filter (fun x => (x ∈ single : Bool)))
        (fun q hq => hh q (List.mem_cons_of_mem _ hq)) with ⟨s, hgl, hmem⟩
      refine ⟨s, by rw [he, hgl], fun o => ?_⟩
      rw [hmem o, hres1 o]
      constructor
      · rintro ⟨⟨h1, h2⟩, h3⟩
        refine ⟨h1, fun q hq => ?_⟩
        rcases List.mem_cons.1 hq with h4 | h4
        · rw [h4]
          exact h2
        · exact h3 q h4
      · rintro ⟨h1, h2⟩
        exact ⟨⟨h1, h2 (a, qv) (List.mem_cons_self _ _)⟩,
          fun q hq => h2 q (List.mem_cons_of_mem _ hq)⟩

theorem gbaLoop_none_spec (idx : PyIdx) (pairs : List (String × QVal))
    (hne : pairs ≠ [])
    (hh : ∀ p ∈ pairs, ∀ u ∈ valsOf p.2, u.hashable = true) :
    ∃ s, gbaLoop idx pairs none = .ok (some s) ∧
      ∀ o, o ∈ s ↔ ∀ p ∈ pairs, matchQ idx p.1 p.2 o := by
  cases pairs with
  | nil => exact absurd rfl hne
  | cons p pt =>
    obtain ⟨a, qv⟩ := p
    rcases collectVals_spec idx a (valsOf qv) []
      (hh (a, qv) (List.mem_cons_self _ _)) with ⟨single, hcv, hsing⟩
    have hsing2 : ∀ o, o ∈ single ↔ matchQ idx a qv o := by
      intro o
      rw [hsing o]
      simp [matchQ]
    by_cases hempty : single = []
    · refine ⟨[], by simp [gbaLoop, hcv, hempty], fun o => ?_⟩
      simp only [List.not_mem_nil, false_iff]
      intro hall
      have : o ∈ single := (hsing2 o).2 (hall (a, qv) (List.mem_cons_self _ _))
      rw [hempty] at this
      simp at this
    · have he : gbaLoop idx ((a, qv) :: pt) none =
          gbaLoop idx pt (some single) := by
        simp [gbaLoop, hcv, hempty]
      rcases gbaLoop_some_spec idx pt single
        (fun q hq => hh q (List.mem_cons_of_mem _ hq)) with ⟨s, hgl, hmem⟩
      refine ⟨s, by rw [he, hgl], fun o => ?_⟩
      rw [hmem o]
      constructor
      · rintro ⟨h1, h2⟩ q hq
        rcases List.mem_cons.1 hq with h3 | h3
        · rw [h3]
          exact (hsing2 o).1 h1
        · exact h2 q h3
      · intro h1
        exact ⟨(hsing2 o).2 (h1 (a, qv) (List.mem_cons_self _ _)),
          fun q hq => h1 q (List.mem_cons_of_mem _ hq)⟩

theorem insertDesc_perm (x : (String × QVal) × Option Nat)
    (l : List ((String × QVal) × Option Nat)) :
    (insertDesc x l).Perm (x :: l) := by
  induction l with
  | nil => exact List.Perm.refl _
  | cons q t ih =>
    rw [insertDesc]
    by_cases hc : countLE q.2 x.2 = true
    · rw [if_pos hc]
    · rw [if_neg hc]
      exact (ih.cons q).trans (List.Perm.swap x q t)

theorem sortDesc_perm (l : List ((String × QVal) × Option Nat)) :
    (sortDesc l).Perm l := by
  induction l with
  | nil => exact List.Perm.refl _
  | cons x t ih =>
    rw [sortDesc]
    exact (insertDesc_perm x (sortDesc t)).trans (ih.cons x)

/-- The selectivity reordering of _get_search_order is a permutation of
the keyword pairs. -/
theorem getSearchOrder_perm (idx : PyIdx) (pairs : List (String × QVal)) :
    (getSearchOrder idx pairs).Perm pairs := by
  unfold getSearchOrder
  have h1 := sortDesc_perm (pairs.map (fun p => (p, searchCount idx p.1)))
  have h2 := h1.map Prod.fst
  rw [List.map_map] at h2
  have h3 : List.map (Prod.fst ∘ fun p => (p, searchCount idx p.1)) pairs =
      pairs := by
    rw [show (Prod.fst ∘ fun p : String × QVal =>
      (p, searchCount idx p.1)) = id from rfl, List.map_id]
  rwa [h3] at h2

/-- Master characterisation of get_by_attribute for a nonempty query with
hashable values. -/
theorem getByAttribute_spec (idx : PyIdx) (pairs : List (String × QVal))
    (hne : pairs ≠ [])
    (hh : ∀ p ∈ pairs, ∀ u ∈ valsOf p.2, u.hashable = true) :
    ∃ s, getByAttribute idx pairs = .ok (some s) ∧
      ∀ o, o ∈ s ↔ ∀ p ∈ pairs, matchQ idx p.1 p.2 o := by
  have hperm := getSearchOrder_perm idx pairs
  have hne2 : getSearchOrder idx pairs ≠ [] := by
    intro hnil
    rw [hnil] at hperm
    exact hne hperm.symm.eq_nil
  have hh2 : ∀ p ∈ getSearchOrder idx pairs, ∀ u ∈ valsOf p.2,
      u.hashable = true :=
    fun p hp => hh p (hperm.mem_iff.1 hp)
  rcases gbaLoop_none_spec idx (getSearchOrder idx pairs) hne2 hh2 with
    ⟨s, h1, h2⟩
  refine ⟨s, h1, fun o => ?_⟩
  rw [h2 o]
  constructor
  · intro h3 p hp
    exact h3 p (hperm.mem_iff.2 hp)
  · intro h3 p hp
    exact h3 p (hperm.mem_iff.1 hp)

/-!
Concrete fixtures used by the claim theorems below.
-/

/-- Heap: object 1 carries key = 1. -/
def heapKey : Nat → Obj := fun n =>
  if n = 1 then [("key", Value.vint 1)] else []

/-- Heap: object 1 carries x = 1. -/
def heapX : Nat → Obj := fun n =>
  if n = 1 then [("x", Value.vint 1)] else []

/-- Heap: object 2 carries an unhashable b. -/
def heapUB : Nat → Obj := fun n =>
  if n = 2 then [("b", Value.vobj 0 false)] else []

/-- Heap: object 1 carries a = 1, an unhashable b, c = 3, in that
discovery order. -/
def heapC4 : Nat → Obj := fun n =>
  if n = 1 then [("a", Value.vint 1), ("b", Value.vobj 0 false),
    ("c", Value.vint 3)] else []

/-- Heap: three objects with k = v1 / v2 / v3, the third also g = 1. -/
def heap3 : Nat → Obj := fun n =>
  if n = 1 then [("k", Value.vstr "v1")]
  else if n = 2 then [("k", Value.vstr "v2")]
  else if n = 3 then [("k", Value.vstr "v3"), ("g", Value.vint 1)]
  else []

/-- History adding the three heap3 objects. -/
def evAdd3 : List Event :=
  [Event.add 1 [] [] Value.vnone, Event.add 2 [] [] Value.vnone,
    Event.add 3 [] [] Value.vnone]

/-- Index state reached by evAdd3 over heap3 (written out literally). -/
def idxThree : PyIdx :=
  [("k", [(Value.vstr "v1", [1]), (Value.vstr "v2", [2]),
    (Value.vstr "v3", [3])]),
   ("g", [(Value.vint 1, [3])])]

/-- Modelled from the spec: the attribute filter that §6 and the add_object
docstring describe, ignore applied to the discovered names first and then
add_attrs unioned back in. -/
def docstringAttrs (keys ignA addA : List String) : List String :=
  (keys.filter (fun a => if a ∈ ignA then false else true)) ++
    addA.filter (fun a =>
      if a ∈ keys.filter (fun b => if b ∈ ignA then false else true)
      then false else true)

/-- C1: the spec and the docstring demand that the indexed attribute set
be (discovered minus ignore_attrs) union add_attrs, so a name in both is
kept; the code computes (discovered union ignore_attrs) minus add_attrs,
so for an object with attribute key, add_attrs = ignore_attrs = {key},
nothing at all is indexed while the docstring keeps key.  Evaluation of
the code at that failing input. -/
theorem c1_code_bug_eval :
    ("key") ∈ docstringAttrs ["key"] ["key"] ["key"] ∧
    (addObject (initConfig heapKey) 1 ["key"] ["key"] Value.vnone).1.index =
      [] ∧
    (addObject (initConfig heapKey) 1 ["key"] ["key"] Value.vnone).2 =
      none := by
  exact ⟨by decide, rfl, rfl⟩

/-- C5: the docstring promises that a name in add_attrs absent from the
object is filed under attr_default; the code subtracts add_attrs instead,
so y is never filed at all (evaluation at the failing input: object with
only x, add_attrs = {y}, attr_default = 5). -/
theorem c5_code_bug_eval :
    ("y") ∈ docstringAttrs ["x"] [] ["y"] ∧
    alistGet ("y")
      (addObject (initConfig heapX) 1 ["y"] [] (Value.vint 5)).1.index =
      none ∧
    (addObject (initConfig heapX) 1 ["y"] [] (Value.vint 5)).2 = none := by
  exact ⟨by decide, by decide, by decide⟩

/-- C10: with zero keyword pairs the accumulator of get_by_attribute is
never initialised and the python None is returned, not a set. -/
theorem c10_empty_query (idx : PyIdx) :
    getByAttribute idx [] = Except.ok Option.none := rfl

/-- C6 counterexample: a list-valued pair whose element is unhashable
raises TypeError from the val in self._index[attr] test instead of
returning any set, refuting the claim as universally stated. -/
theorem c6_counterexample :
    getByAttribute [(("a"), [(Value.vint 1, [1])])]
      [(("a"), QVal.vals [Value.vobj 0 false])] =
      Except.error unhashableKeyMsg := rfl

/-- C6 amended: for a query containing a list-valued pair, provided every
queried value (every list element) is hashable, the result is the set of
objects filed under at least one of the list elements for that attribute,
intersected over all pairs. -/
theorem c6_amended (idx : PyIdx) (pairs : List (String × QVal))
    (hlist : ∃ a vs, (a, QVal.vals vs) ∈ pairs)
    (hh : ∀ p ∈ pairs, ∀ u ∈ valsOf p.2, u.hashable = true) :
    ∃ s, getByAttribute idx pairs = .ok (some s) ∧
      ∀ o, o ∈ s ↔
        ∀ p ∈ pairs, ∃ v ∈ valsOf p.2, memBucket idx p.1 v o = true := by
  have hne : pairs ≠ [] := by
    rcases hlist with ⟨a, vs, hm⟩
    intro hnil
    rw [hnil] at hm
    simp at hm
  rcases getByAttribute_spec idx pairs hne hh with ⟨s, h1, h2⟩
  exact ⟨s, h1, fun o => h2 o⟩

/-- C6 witness: membership query k in {v1, v3} intersected with g = 1 on
a concrete index. -/
theorem c6_amended_witness :
    ∃ s, getByAttribute idxThree
        [(("k"), QVal.vals [Value.vstr "v1", Value.vstr "v3"]),
          (("g"), QVal.scalar (Value.vint 1))] = .ok (some s) ∧
      ∀ o, o ∈ s ↔
        ∀ p ∈ [(("k"), QVal.vals [Value.vstr "v1", Value.vstr "v3"]),
          (("g"), QVal.scalar (Value.vint 1))],
          ∃ v ∈ valsOf p.2, memBucket idxThree p.1 v o = true :=
  c6_amended idxThree
    [(("k"), QVal.vals [Value.vstr "v1", Value.vstr "v3"]),
      (("g"), QVal.scalar (Value.vint 1))]
    ⟨("k"), [Value.vstr "v1", Value.vstr "v3"], by decide⟩ (by decide)

/-- C7 counterexample: after a raising add_object left the empty entry b,
a query naming b with an unhashable value together with the never-indexed
attribute zz raises TypeError instead of returning the empty set (both
count as infinity for the selectivity order and the stable sort keeps b
first). -/
theorem c7_counterexample :
    alistGet ("zz")
      (steps (initConfig heapUB) [Event.add 2 [] [] Value.vnone]).index =
      none ∧
    getByAttribute
      (steps (initConfig heapUB) [Event.add 2 [] [] Value.vnone]).index
      [(("b"), QVal.vals [Value.vobj 0 false]),
        (("zz"), QVal.scalar Value.vnone)] =
      Except.error unhashableKeyMsg := by
  exact ⟨by decide, rfl⟩

/-- C7 amended: a query naming at least one attribute absent from the
index returns the empty set and raises no error, provided every queried
value is hashable. -/
theorem c7_amended (idx : PyIdx) (pairs : List (String × QVal))
    (hmiss : ∃ p ∈ pairs, alistGet p.1 idx = none)
    (hh : ∀ p ∈ pairs, ∀ u ∈ valsOf p.2, u.hashable = true) :
    ∃ s, getByAttribute idx pairs = .ok (some s) ∧ ∀ o, ¬ o ∈ s := by
  rcases hmiss with ⟨p0, hp0, hg0⟩
  have hne : pairs ≠ [] := by
    intro hnil
    rw [hnil] at hp0
    simp at hp0
  rcases getByAttribute_spec idx pairs hne hh with ⟨s, h1, h2⟩
  refine ⟨s, h1, fun o ho => ?_⟩
  rcases (h2 o).1 ho p0 hp0 with ⟨v, hv, hmv⟩
  rw [memBucket_absent idx p0.1 hg0] at hmv
  simp at hmv

/-- C7 witness: querying the populated attribute k together with the
never-indexed zz yields the empty set. -/
theorem c7_amended_witness :
    ∃ s, getByAttribute idxThree
        [(("k"), QVal.scalar (Value.vstr "v1")),
          (("zz"), QVal.scalar Value.vnone)] = .ok (some s) ∧
      ∀ o, ¬ o ∈ s :=
  c7_amended idxThree
    [(("k"), QVal.scalar (Value.vstr "v1")),
      (("zz"), QVal.scalar Value.vnone)]
    ⟨(("zz"), QVal.scalar Value.vnone), by decide, rfl⟩ (by decide)

/-- C9: for a nonempty query with hashable values the set returned by
get_by_attribute is the same under any permutation of the pairs; the
selectivity reordering changes only evaluation order. -/
theorem c9_permutation (idx : PyIdx) (pairs1 pairs2 : List (String × QVal))
    (hne : pairs1 ≠ []) (hperm : pairs1.Perm pairs2)
    (hh : ∀ p ∈ pairs1, ∀ u ∈ valsOf p.2, u.hashable = true) :
    ∃ s1 s2, getByAttribute idx pairs1 = .ok (some s1) ∧
      getByAttribute idx pairs2 = .ok (some s2) ∧
      ∀ o, (o ∈ s1 ↔ o ∈ s2) := by
  have hne2 : pairs2 ≠ [] := by
    intro h2
    rw [h2] at hperm
    exact hne hperm.eq_nil
  have hh2 : ∀ p ∈ pairs2, ∀ u ∈ valsOf p.2, u.hashable = true :=
    fun p hp => hh p (hperm.mem_iff.2 hp)
  rcases getByAttribute_spec idx pairs1 hne hh with ⟨s1, h11, h12⟩
  rcases getByAttribute_spec idx pairs2 hne2 hh2 with ⟨s2, h21, h22⟩
  refine ⟨s1, s2, h11, h21, fun o => ?_⟩
  rw [h12 o, h22 o]
  constructor
  · intro h p hp
    exact h p (hperm.mem_iff.2 hp)
  · intro h p hp
    exact h p (hperm.mem_iff.1 hp)

/-- C9 witness: the two orders of the pairs g = 1, k = v3 on a concrete
index produce the same set. -/
theorem c9_permutation_witness :
    ∃ s1 s2, getByAttribute idxThree
        [(("g"), QVal.scalar (Value.vint 1)),
          (("k"), QVal.scalar (Value.vstr "v3"))] = .ok (some s1) ∧
      getByAttribute idxThree
        [(("k"), QVal.scalar (Value.vstr "v3")),
          (("g"), QVal.scalar (Value.vint 1))] = .ok (some s2) ∧
      ∀ o, (o ∈ s1 ↔ o ∈ s2) :=
  c9_permutation idxThree
    [(("g"), QVal.scalar (Value.vint 1)),
      (("k"), QVal.scalar (Value.vstr "v3"))]
    [(("k"), QVal.scalar (Value.vstr "v3")),
      (("g"), QVal.scalar (Value.vint 1))]
    (by decide) (by decide) (by decide)

/-- History behind the C2 counterexample: file object 1 under y = 7 via
ignore_attrs although it has no attribute y, mutate y to an unhashable
value (the re-add raises after the store was updated), then mutate y to 5
(the removal raises on the unhashable old dict key before touching the
index). -/
def evC2 : List Event :=
  [Event.add 1 [] ["y"] (Value.vint 7),
   Event.set 1 ("y") (Value.vobj 0 false),
   Event.set 1 ("y") (Value.vint 5)]

/-- C2 counterexample: after evC2 the object is still filed under y (in
the stale bucket 7), its current value of y is the hashable 5, yet the
query y = 5 returns the empty set, which does not contain it. -/
theorem c2_counterexample :
    memBucket (steps (initConfig heapX) evC2).index ("y") (Value.vint 7) 1 =
      true ∧
    objGet ((steps (initConfig heapX) evC2).store 1) ("y") =
      some (Value.vint 5) ∧
    (Value.vint 5).hashable = true ∧
    getByAttribute (steps (initConfig heapX) evC2).index
      [(("y"), QVal.scalar (Value.vint 5))] = .ok (some []) ∧
    ¬ (1 ∈ ([] : List Nat)) := by
  exact ⟨by decide, by decide, by decide, rfl, by simp⟩

/-- C2 amended: along a history in which no operation raised a TypeError,
every object filed under an attribute is returned by the equality query
on its current value of that attribute. -/
theorem c2_amended (s0 : Nat → Obj) (evs : List Event) (c : Config)
    (oid : Nat) (a : String) (w v : Value)
    (hrun : stepsOk (initConfig s0) evs = some c)
    (hm : memBucket c.index a w oid = true)
    (hv : objGet (c.store oid) a = some v) :
    ∃ s, getByAttribute c.index [(a, QVal.scalar v)] = .ok (some s) ∧
      oid ∈ s := by
  have hG := GoodInv_stepsOk evs (initConfig s0) c (GoodInv_init s0) hrun
  have hpos := hG.2.2.2 oid a w v hm hv
  have hvh : v.hashable = true :=
    memBucket_key_hashable c.index hG.1 a v oid hpos
  have hh : ∀ p ∈ [(a, QVal.scalar v)], ∀ u ∈ valsOf p.2,
      u.hashable = true := by
    intro p hp u hu
    rw [List.mem_singleton.1 hp] at hu
    simp [valsOf] at hu
    rw [hu]
    exact hvh
  rcases getByAttribute_spec c.index [(a, QVal.scalar v)] (by simp) hh with
    ⟨s, h1, h2⟩
  refine ⟨s, h1, ?_⟩
  rw [h2 oid]
  intro p hp
  rw [List.mem_singleton.1 hp]
  exact ⟨v, by simp [valsOf], hpos⟩

/-- History behind the C2 witness: add the three heap3 objects and mutate
the first one. -/
def evC2w : List Event :=
  [Event.add 1 [] [] Value.vnone, Event.set 1 ("k") (Value.vstr "v9")]

/-- C2 witness: after an add and a mutation the object is found by the
query on its current value. -/
theorem c2_amended_witness :
    ∃ s, getByAttribute (steps (initConfig heap3) evC2w).index
        [(("k"), QVal.scalar (Value.vstr "v9"))] = .ok (some s) ∧ 1 ∈ s :=
  c2_amended heap3 evC2w (steps (initConfig heap3) evC2w) 1 ("k")
    (Value.vstr "v9") (Value.vstr "v9") rfl (by decide) (by decide)

/-- C3: a mutation o.a := vNew (from current value vOld) on an object
subscribed to the index moves exactly that object from the vOld bucket to
the vNew bucket of a; the membership of every other object under a, and
every bucket of every other attribute, are unchanged.  Stated over any
well-formed index state with hashable old and new values (an unhashable
value raises instead of returning). -/
theorem c3_mutation_frame (c : Config) (oid : Nat) (a : String)
    (vOld vNew : Value) (hwf : IdxInv c.index) (hsub : oid ∈ c.subs)
    (hund : underscored a = false)
    (hcur : objGet (c.store oid) a = some vOld)
    (hin : memBucket c.index a vOld oid = true)
    (hho : vOld.hashable = true) (hhn : vNew.hashable = true) :
    (setAttrStep c oid a vNew).2 = none ∧
    memBucket (setAttrStep c oid a vNew).1.index a vNew oid = true ∧
    (vOld ≠ vNew →
      memBucket (setAttrStep c oid a vNew).1.index a vOld oid = false) ∧
    (∀ w o2, o2 ≠ oid →
      memBucket (setAttrStep c oid a vNew).1.index a w o2 =
        memBucket c.index a w o2) ∧
    (∀ b w o2, b ≠ a →
      memBucket (setAttrStep c oid a vNew).1.index b w o2 =
        memBucket c.index b w o2) := by
  have hold : ((objGet (c.store oid) a).getD Value.vnone) = vOld := by
    rw [hcur]
    rfl
  have hpres : ∃ m, alistGet a c.index = some m := by
    cases hg : alistGet a c.index with
    | none =>
      rw [memBucket_absent _ _ hg] at hin
      simp at hin
    | some m => exact ⟨m, rfl⟩
  rcases hpres with ⟨m, hm⟩
  have hnd : ∀ b, alistGet vOld m = some b → b.Nodup := by
    intro b hb
    exact ((hwf.2 (a, m) (alistGet_mem _ _ _ hm)).2.2 (vOld, b)
      (alistGet_mem _ _ _ hb)).2.2
  have hrnone : (removeIndex c.index oid a vOld).2 = none :=
    (removeIndex_ok c.index oid a vOld m hm hho hnd).1
  rcases setAttrStep_sub_cases c oid a vNew hsub with
    ⟨idx1, e2, hr, he⟩ | ⟨idx1, idx2, r, hr, ha, he⟩
  · rw [hold] at hr
    rw [hr] at hrnone
    simp at hrnone
  · rw [hold] at hr
    have hrm := removeIndex_mem_of_ok c.index oid a vOld idx1 hr hwf
    have hnewv : objGetD (setStore c oid a vNew oid) a c.attrDefault =
        vNew := by
      rw [objGetD, objGet_setStore_self]
      rfl
    have haok := addIndexAttr_ok c.attrDefault (setStore c oid a vNew oid)
      idx1 oid a hund (by rw [hnewv]; exact hhn)
    have hrn : r = none := by
      have := haok.1
      rwa [ha] at this
    subst hrn
    have ham : ∀ a2 w o2, memBucket idx2 a2 w o2 = true ↔
        (memBucket idx1 a2 w o2 = true ∨
          (a2 = a ∧ w = vNew ∧ o2 = oid)) := by
      intro a2 w o2
      have h2 := haok.2 a2 w o2
      rw [ha] at h2
      rwa [hnewv] at h2
    have hbool : ∀ (x y : Bool), (x = true ↔ y = true) → x = y := by decide
    rw [he]
    refine ⟨rfl, ?_, ?_, ?_, ?_⟩
    · exact (ham a vNew oid).2 (Or.inr ⟨rfl, rfl, rfl⟩)
    · intro hneq
      cases hmb : memBucket idx2 a vOld oid with
      | false => rfl
      | true =>
        exfalso
        rcases (ham a vOld oid).1 hmb with h1 | ⟨_, hvv, _⟩
        · exact ((hrm a vOld oid).1 h1).2 ⟨rfl, rfl, rfl⟩
        · exact hneq hvv
    · intro w o2 ho2
      apply hbool
      constructor
      · intro hmb
        rcases (ham a w o2).1 hmb with h1 | ⟨_, _, ho⟩
        · exact ((hrm a w o2).1 h1).1
        · exact absurd ho ho2
      · intro hmb
        exact (ham a w o2).2
          (Or.inl ((hrm a w o2).2 ⟨hmb, fun hx => ho2 hx.2.2⟩))
    · intro b w o2 hb
      apply hbool
      constructor
      · intro hmb
        rcases (ham b w o2).1 hmb with h1 | ⟨hb2, _, _⟩
        · exact ((hrm b w o2).1 h1).1
        · exact absurd hb2 hb
      · intro hmb
        exact (ham b w o2).2
          (Or.inl ((hrm b w o2).2 ⟨hmb, fun hx => hb hx.1⟩))

/-- C3 witness: mutate k of object 1 from v1 to v9 over the index built
by evAdd3 and observe the moved bucket and the untouched memberships. -/
theorem c3_mutation_frame_witness :
    (setAttrStep (steps (initConfig heap3) evAdd3) 1 ("k")
      (Value.vstr "v9")).2 = none ∧
    memBucket (setAttrStep (steps (initConfig heap3) evAdd3) 1 ("k")
      (Value.vstr "v9")).1.index ("k") (Value.vstr "v9") 1 = true ∧
    memBucket (setAttrStep (steps (initConfig heap3) evAdd3) 1 ("k")
      (Value.vstr "v9")).1.index ("k") (Value.vstr "v1") 1 = false ∧
    memBucket (setAttrStep (steps (initConfig heap3) evAdd3) 1 ("k")
      (Value.vstr "v9")).1.index ("k") (Value.vstr "v2") 2 =
      memBucket (steps (initConfig heap3) evAdd3).index ("k")
        (Value.vstr "v2") 2 ∧
    memBucket (setAttrStep (steps (initConfig heap3) evAdd3) 1 ("k")
      (Value.vstr "v9")).1.index ("g") (Value.vint 1) 3 =
      memBucket (steps (initConfig heap3) evAdd3).index ("g")
        (Value.vint 1) 3 := by
  have h := c3_mutation_frame (steps (initConfig heap3) evAdd3) 1 ("k")
    (Value.vstr "v1") (Value.vstr "v9")
    (IdxInv_steps evAdd3 (initConfig heap3) (GoodInv_init heap3).1)
    (by decide) (by decide) (by decide) (by decide) (by decide) (by decide)
  exact ⟨h.1, h.2.1, h.2.2.1 (by decide), h.2.2.2.1 (Value.vstr "v2") 2
    (by decide), h.2.2.2.2 ("g") (Value.vint 1) 3 (by decide)⟩

theorem addObjectLoop_append (oid : Nat) (l1 : List String) :
    ∀ (c c1 : Config) (l2 : List String),
      addObjectLoop c oid l1 = (c1, none) →
      addObjectLoop c oid (l1 ++ l2) = addObjectLoop c1 oid l2 := by
  induction l1 with
  | nil =>
    intro c c1 l2 h
    have hc : c = c1 := by simpa [addObjectLoop] using congrArg Prod.fst h
    rw [List.nil_append, hc]
  | cons a t ih =>
    intro c c1 l2 h
    cases hstep : addIndexAttr c.attrDefault (c.store oid) c.index oid a with
    | mk idx1 err =>
      cases err with
      | none =>
        rw [addObjectLoop, hstep] at h
        rw [List.cons_append, addObjectLoop, hstep]
        exact ih { c with index := idx1 } c1 l2 h
      | some e =>
        rw [addObjectLoop, hstep] at h
        simp at h

/-- C4 counterexample: the object carrying an unhashable b before a in
iteration order is rejected wholesale: the TypeError propagates, the
later attribute c and even a (discovered after b) are never indexed, and
the object is not subscribed, refuting "the other attributes are still
indexed successfully".  Discovery order here is b, a. -/
theorem c4_counterexample :
    (addObject (initConfig (fun n =>
      if n = 1 then [("b", Value.vobj 0 false), ("a", Value.vint 1)]
      else [])) 1 [] [] Value.vnone).2 = some unhashableTypeMsg ∧
    alistGet ("a") (addObject (initConfig (fun n =>
      if n = 1 then [("b", Value.vobj 0 false), ("a", Value.vint 1)]
      else [])) 1 [] [] Value.vnone).1.index = none ∧
    (addObject (initConfig (fun n =>
      if n = 1 then [("b", Value.vobj 0 false), ("a", Value.vint 1)]
      else [])) 1 [] [] Value.vnone).1.subs = [] := by
  exact ⟨by decide, by decide, by decide⟩

/-- C4 amended: when the discovered attribute order splits as
l1 ++ bad :: l2 with the loop succeeding on l1 and bad holding an
unhashable value, add_object propagates the TypeError, does not
subscribe the object, keeps exactly the attributes of l1 indexed, and
never touches those of l2. -/
theorem c4_amended (c : Config) (oid : Nat) (addA ignA : List String)
    (d : Value) (l1 l2 : List String) (bad : String) (c1 : Config)
    (hsplit : computeAttrs ((c.store oid).map Prod.fst) ignA addA =
      l1 ++ bad :: l2)
    (h1 : addObjectLoop { c with attrDefault := d } oid l1 = (c1, none))
    (hb1 : underscored bad = false)
    (hb2 : (objGetD (c.store oid) bad d).hashable = false) :
    (addObject c oid addA ignA d).2 = some unhashableTypeMsg ∧
    (addObject c oid addA ignA d).1.subs = c.subs ∧
    ∀ a w o2, memBucket (addObject c oid addA ignA d).1.index a w o2 =
      memBucket c1.index a w o2 := by
  have hf := addObjectLoop_fields oid l1 { c with attrDefault := d }
  rw [h1] at hf
  have hstep2 : addIndexAttr c1.attrDefault (c1.store oid) c1.index oid bad =
      (alistSet bad ((alistGet bad c1.index).getD []) c1.index,
        some unhashableTypeMsg) := by
    rw [hf.2.1, hf.1]
    exact (addIndexAttr_err d (c.store oid) c1.index oid bad hb1 hb2).1
  have hloop2 : addObjectLoop c1 oid (bad :: l2) =
      ({ c1 with index :=
          alistSet bad ((alistGet bad c1.index).getD []) c1.index },
        some unhashableTypeMsg) := by
    rw [addObjectLoop, hstep2]
  have hfull : addObjectLoop { c with attrDefault := d } oid
      (l1 ++ bad :: l2) =
      ({ c1 with index :=
          alistSet bad ((alistGet bad c1.index).getD []) c1.index },
        some unhashableTypeMsg) := by
    rw [addObjectLoop_append oid l1 { c with attrDefault := d } c1
      (bad :: l2) h1, hloop2]
  have haddObj : addObject c oid addA ignA d =
      ({ c1 with index :=
          alistSet bad ((alistGet bad c1.index).getD []) c1.index },
        some unhashableTypeMsg) := by
    rw [addObject]
    rw [hsplit, hfull]
  rw [haddObj]
  refine ⟨rfl, hf.2.2, fun a w o2 => ?_⟩
  by_cases hab : a = bad
  · rw [hab]
    exact memBucket_getD_entry c1.index bad w o2
  · exact memBucket_set_ne _ _ _ _ _ _ hab

/-- C4 witness: discovery order a, b, c with b unhashable: the error
propagates, nothing is subscribed, a keeps its bucket and c gets none. -/
theorem c4_amended_witness :
    (addObject (initConfig heapC4) 1 [] [] Value.vnone).2 =
      some unhashableTypeMsg ∧
    (addObject (initConfig heapC4) 1 [] [] Value.vnone).1.subs = [] ∧
    (memBucket (addObject (initConfig heapC4) 1 [] [] Value.vnone).1.index
        ("a") (Value.vint 1) 1 = true ∧
      memBucket (addObject (initConfig heapC4) 1 [] [] Value.vnone).1.index
        ("c") (Value.vint 3) 1 = false) := by
  have h := c4_amended (initConfig heapC4) 1 [] [] Value.vnone ["a"] ["c"]
    ("b")
    (addObjectLoop { initConfig heapC4 with attrDefault := Value.vnone } 1
      ["a"]).1
    (by decide) rfl (by decide) (by decide)
  refine ⟨h.1, h.2.1, ?_, ?_⟩
  · rw [h.2.2 ("a") (Value.vint 1) 1]
    decide
  · rw [h.2.2 ("c") (Value.vint 3) 1]
    decide

/-- C8 counterexample: a single add_object of an object whose only
attribute holds an unhashable value raises after creating the attribute
entry, leaving the empty entry b in the index and refuting "no empty
attribute entry" for histories that include a raising operation. -/
theorem c8_counterexample :
    alistGet ("b")
      (steps (initConfig heapUB) [Event.add 2 [] [] Value.vnone]).index =
      some [] := by
  decide

/-- C8 amended: along every history, raising or not, no bucket is empty
and no object appears twice in a bucket; along histories in which no
operation raised, additionally no empty attribute entry is retained. -/
theorem c8_amended (s0 : Nat → Obj) (evs : List Event) :
    (∀ p ∈ (steps (initConfig s0) evs).index, ∀ q ∈ p.2,
      q.2 ≠ [] ∧ q.2.Nodup) ∧
    (∀ c2, stepsOk (initConfig s0) evs = some c2 →
      ∀ p ∈ c2.index, p.2 ≠ [] ∧ ∀ q ∈ p.2, q.2 ≠ [] ∧ q.2.Nodup) := by
  have hI := IdxInv_steps evs (initConfig s0) (GoodInv_init s0).1
  constructor
  · intro p hp q hq
    have h2 := (hI.2 p hp).2.2 q hq
    exact ⟨h2.2.1, h2.2.2⟩
  · intro c2 hrun p hp
    have hG := GoodInv_stepsOk evs (initConfig s0) c2 (GoodInv_init s0) hrun
    refine ⟨hG.2.1 p hp, fun q hq => ?_⟩
    have h2 := (hG.1.2 p hp).2.2 q hq
    exact ⟨h2.2.1, h2.2.2⟩

/-- C8 witness: on the error-free history evAdd3 the invariant yields the
nonemptiness and duplicate-freeness of a concrete bucket and the
nonemptiness of a concrete attribute entry. -/
theorem c8_amended_witness :
    (([1] : List Nat) ≠ [] ∧ ([1] : List Nat).Nodup) ∧
    ([(Value.vint 1, [3])] : List (Value × List Nat)) ≠ [] := by
  constructor
  · exact (c8_amended heap3 evAdd3).1
      (("k"), [(Value.vstr "v1", [1]), (Value.vstr "v2", [2]),
        (Value.vstr "v3", [3])]) (by decide) (Value.vstr "v1", [1])
      (by decide)
  · exact ((c8_amended heap3 evAdd3).2 (steps (initConfig heap3) evAdd3) rfl
      (("g"), [(Value.vint 1, [3])]) (by decide)).1
